import Mathlib

set_option linter.unusedSectionVars false
set_option linter.unusedVariables false
set_option maxRecDepth 8192

/-!
Verification of the `mytable` storage engine (flat fixed-record file,
generic record codec, persistent BST index) against its specification.

The embedding is shallow:
* `Table` models `src/table.rs`: the file is a `List Nat` of bytes; reads
  and writes are positional (`read_exact_at` / `write_all_at` on a regular
  file, so a write at an offset past the end zero-pads and extends).
* `TableTrait` models `src/table_trait.rs`.  The codec `as_bytes` /
  `from_bytes` is a raw fixed-size copy of the record and round-trips
  exactly, so a table of records is modelled as the list of decoded
  records; `table.append` is list append, `table.update idx` is
  `List.set`, `table.get idx` is `List.getElem?` (a failed read is an IO
  error).
* `TableIndex` models `src/table_index.rs`.  The lazy iterators are
  modelled by the full list of items they yield; `.unwrap()` calls are
  modelled by `Option`, `none` standing for a panic (or, for the
  fuel-bounded loops below, divergence / fuel exhaustion, which never
  happens on well-formed tables).
-/

/-- Error kinds surfaced by the engine (`io::ErrorKind` as used in the source). -/
inductive Err where
  | notFound
  | invalidInput
  | ioError
deriving DecidableEq, Repr

/-- A record: a 1-based identity plus an arbitrary fixed-width payload.
`TableTrait` in the source only requires `id`/`set_id`; both implementations
in the repository (`Person`, `TableIndex`) store the identity as a plain
field, which this structure captures generically. -/
structure Rec (α : Type) where
  id : Nat
  payload : α
deriving DecidableEq, Repr

/-- `set_id` of the `TableTrait` contract. -/
def Rec.setId (r : Rec α) (i : Nat) : Rec α := { r with id := i }

namespace Table

/-- `Table::size`: file length divided by block size. -/
def size (bs : Nat) (f : List Nat) : Nat := f.length / bs

/-- `Table::empty`. -/
def empty (bs : Nat) (f : List Nat) : Bool := size bs f = 0

/-- Semantics of `write_all_at` on a regular file: bytes before the offset
are kept, a hole past the end reads back as zeros, the block overwrites in
place, and the tail after the written range is kept. -/
def writeAllAt (f : List Nat) (b : List Nat) (off : Nat) : List Nat :=
  f.take off ++ List.replicate (off - f.length) 0 ++ b ++ f.drop (off + b.length)

/-- `Table::get`: `read_exact_at` of one block; fails (IO error,
`UnexpectedEof`) if fewer than `bs` bytes exist at the offset. -/
def get (bs : Nat) (f : List Nat) (idx : Nat) : Except Err (List Nat) :=
  if idx * bs + bs ≤ f.length then .ok ((f.drop (idx * bs)).take bs)
  else .error .ioError

/-- `Table::append`: writes the block at slot `size` and returns that slot
index together with the new file contents. -/
def append (bs : Nat) (f : List Nat) (b : List Nat) : Nat × List Nat :=
  (size bs f, writeAllAt f b (size bs f * bs))

/-- `Table::update`: `write_all_at` at `idx * bs`.  The source performs no
bound check, so the write always succeeds on a regular file. -/
def update (bs : Nat) (f : List Nat) (b : List Nat) (idx : Nat) :
    Except Err (List Nat) :=
  .ok (writeAllAt f b (idx * bs))

end Table

namespace TableTrait

/-- `TableTrait::get_first_id`: 1 on a non-empty table, `NotFound` otherwise. -/
def get_first_id (t : List (Rec α)) : Except Err Nat :=
  if t.length = 0 then .error .notFound else .ok 1

/-- `TableTrait::get_index_by_id`. -/
def get_index_by_id (t : List (Rec α)) (id : Nat) : Except Err Nat :=
  if 0 < id ∧ id ≤ t.length then .ok (id - 1) else .error .notFound

/-- `TableTrait::get`: decode the record stored at slot `id - 1`. -/
def get (t : List (Rec α)) (id : Nat) : Except Err (Rec α) :=
  if t.length < id then .error .notFound
  else
    match get_index_by_id t id with
    | .error e => .error e
    | .ok idx =>
      match t[idx]? with
      | some r => .ok r
      | none => .error .ioError

/-- `TableTrait::get_first`. -/
def get_first (t : List (Rec α)) : Except Err (Rec α) := get t 1

/-- `TableTrait::insert`: reject a nonzero identity, append the record,
assign identity `slot + 1`, then rewrite the same slot with the identity
embedded.  Returns (result, the record after mutation, the table after). -/
def insert (r : Rec α) (t : List (Rec α)) :
    Except Err Nat × Rec α × List (Rec α) :=
  if r.id ≠ 0 then (.error .invalidInput, r, t)
  else
    let idx := t.length
    let t1 := t ++ [r]
    let r1 := r.setId (idx + 1)
    let t2 := t1.set idx r1
    (.ok r1.id, r1, t2)

/-- `TableTrait::update`: overwrite the slot derived from the record's
identity; fails `NotFound` on an invalid identity. -/
def update (r : Rec α) (t : List (Rec α)) : Except Err (List (Rec α)) :=
  match get_index_by_id t r.id with
  | .error e => .error e
  | .ok idx => .ok (t.set idx r)

end TableTrait

section TableTraitLemmas

variable {α : Type}

theorem set_append_singleton (t : List (Rec α)) (r r1 : Rec α) :
    (t ++ [r]).set t.length r1 = t ++ [r1] := by
  induction t with
  | nil => rfl
  | cons a t ih => simp [List.set, ih]

theorem insert_fresh (t : List (Rec α)) (r : Rec α) (h : r.id = 0) :
    TableTrait.insert r t =
      (.ok (t.length + 1), r.setId (t.length + 1), t ++ [r.setId (t.length + 1)]) := by
  simp [TableTrait.insert, h, Rec.setId, set_append_singleton]

theorem get_last (t : List (Rec α)) (r1 : Rec α) :
    TableTrait.get (t ++ [r1]) (t.length + 1) = .ok r1 := by
  have hlen : (t ++ [r1]).length = t.length + 1 := by simp
  simp only [TableTrait.get, TableTrait.get_index_by_id, hlen]
  have h1 : ¬ (t.length + 1 < t.length + 1) := by omega
  have h2 : 0 < t.length + 1 ∧ t.length + 1 ≤ t.length + 1 := by omega
  simp only [if_neg (by omega : ¬ (t.length + 1 < t.length + 1)), if_pos h2]
  have : (t ++ [r1])[t.length + 1 - 1]? = some r1 := by
    simp [List.getElem?_append_right]
  simp [this]

end TableTraitLemmas

namespace TableIndex

/-- The non-identity fields of the index node `TableIndex<T>` in the source:
the indexed value, the referenced application record's identity
(`table_id`, 0 = tombstone), and the identities of the two children
(0 = absent). -/
structure Node (T : Type) where
  value : T
  table_id : Nat
  left : Nat
  right : Nat
deriving DecidableEq, Repr

/-- An index table: a fixed-record file of index nodes. -/
abbrev ITable (T : Type) := List (Rec (Node T))

variable {T : Type} [LinearOrder T]

/-- `Self::get(table, id).unwrap()`: `none` models the panic. -/
def getU (t : ITable T) (id : Nat) : Option (Rec (Node T)) :=
  match TableTrait.get t id with
  | .ok r => some r
  | .error _ => none

/-- The loop of `TableIndex::_bind`: descend from node `id` comparing the
new value with each node's value (`<` goes left, otherwise right); at the
first absent child, set that child pointer to `record_id` and persist the
parent.  The fuel bounds the number of visited nodes; on a well-formed
table the descent visits strictly increasing identities, so
`t.length + 1` fuel is never exhausted. -/
def bindGo (t : ITable T) (v : T) (record_id : Nat) : Nat → Nat → Option (ITable T)
  | _, 0 => none
  | id, fuel + 1 =>
    if id = 0 then some t
    else
      match getU t id with
      | none => none
      | some rec =>
        if v < rec.payload.value then
          if rec.payload.left = 0 then
            match TableTrait.update { rec with payload := { rec.payload with left := record_id } } t with
            | .ok t' => some t'
            | .error _ => none
          else bindGo t v record_id rec.payload.left fuel
        else
          if rec.payload.right = 0 then
            match TableTrait.update { rec with payload := { rec.payload with right := record_id } } t with
            | .ok t' => some t'
            | .error _ => none
          else bindGo t v record_id rec.payload.right fuel

/-- `TableIndex::_bind`: unwrap the first identity (panics on an empty
table), and skip the linking walk when the new node is itself the first
record. -/
def bind (t : ITable T) (v : T) (record_id : Nat) : Option (ITable T) :=
  match TableTrait.get_first_id t with
  | .error _ => none
  | .ok id => if id ≠ record_id then bindGo t v record_id id (t.length + 1) else some t

/-- `TableIndex::add`: insert a fresh node `{value, table_id, left:0, right:0}`
(the insertion error is propagated by `?`), then link it into the tree. -/
def add (t : ITable T) (v : T) (table_id : Nat) : Option (Except Err (ITable T)) :=
  let record : Rec (Node T) := ⟨0, ⟨v, table_id, 0, 0⟩⟩
  match TableTrait.insert record t with
  | (.error e, _, _) => some (.error e)
  | (.ok record_id, _, t1) =>
    match bind t1 v record_id with
    | none => none
    | some t2 => some (.ok t2)

/-- The descent of `TableIndex::_iter_by_value` from node `id`: go left when
`value < node.value`, otherwise go right, yielding every node whose value
equals `value`.  Models the full sequence produced by the lazy iterator. -/
def iterByValueGo (t : ITable T) (v : T) : Nat → Nat → Option (List (Rec (Node T)))
  | _, 0 => none
  | id, fuel + 1 =>
    if id = 0 then some []
    else
      match getU t id with
      | none => none
      | some rec =>
        if v < rec.payload.value then iterByValueGo t v rec.payload.left fuel
        else if v = rec.payload.value then
          (iterByValueGo t v rec.payload.right fuel).map (rec :: ·)
        else iterByValueGo t v rec.payload.right fuel

/-- `TableIndex::_iter_by_value`: the first identity is unwrapped eagerly
(panics on an empty table) before the lazy descent. -/
def iterByValue (t : ITable T) (v : T) : Option (List (Rec (Node T))) :=
  match TableTrait.get_first_id t with
  | .error _ => none
  | .ok id => iterByValueGo t v id (t.length + 1)

/-- `TableIndex::search_many`: keep the live nodes of the descent and map
them to their target identities. -/
def search_many (t : ITable T) (v : T) : Option (List Nat) :=
  (iterByValue t v).map fun l =>
    (l.filter fun r => decide (0 < r.payload.table_id)).map fun r => r.payload.table_id

/-- `TableIndex::search_one`: the first element of `search_many`, or
`NotFound` when the descent yields nothing. -/
def search_one (t : ITable T) (v : T) : Option (Except Err Nat) :=
  match search_many t v with
  | none => none
  | some [] => some (.error .notFound)
  | some (x :: _) => some (.ok x)

/-- The search loop of `TableIndex::exclude`: consume `_iter_by_value`
(value-guided descent) until the first node whose `table_id` matches. -/
def excludeFind (t : ITable T) (v : T) (table_id : Nat) : Nat → Nat → Option (Option (Rec (Node T)))
  | _, 0 => none
  | id, fuel + 1 =>
    if id = 0 then some none
    else
      match getU t id with
      | none => none
      | some rec =>
        if v < rec.payload.value then excludeFind t v table_id rec.payload.left fuel
        else if v = rec.payload.value then
          if rec.payload.table_id = table_id then some (some rec)
          else excludeFind t v table_id rec.payload.right fuel
        else excludeFind t v table_id rec.payload.right fuel

/-- `TableIndex::exclude`: find the exact `(value, table_id)` pair along the
descent, zero its `table_id` and persist it (`rec.update(table)?`), or fail
`NotFound`. -/
def exclude (t : ITable T) (v : T) (table_id : Nat) : Option (Except Err (ITable T)) :=
  match TableTrait.get_first_id t with
  | .error _ => none
  | .ok id =>
    match excludeFind t v table_id id (t.length + 1) with
    | none => none
    | some none => some (.error .notFound)
    | some (some rec) =>
      match TableTrait.update { rec with payload := { rec.payload with table_id := 0 } } t with
      | .ok t' => some (.ok t')
      | .error e => some (.error e)

/-- Total fuel for the traversal state machine: each node of a well-formed
tree is visited exactly four times (phases 0 to 3). -/
def iterFuel (t : ITable T) : Nat := 4 * t.length + 5

/-- The traversal state machine of `TableIndex::iter`: a stack of
`(record, phase)` frames; phase 0 pushes the left child, phase 1 yields the
node's `table_id` when live, phase 2 pushes the right child, phase 3 pops.
One recursive call models one iteration of the inner `while` loop; the
result is the full list of yielded target identities. -/
def iterGo (t : ITable T) : Nat → List (Rec (Node T) × Nat) → Option (List Nat)
  | 0, _ => none
  | _ + 1, [] => some []
  | fuel + 1, (rec, ph) :: rest =>
    if ph = 0 then
      if 0 < rec.payload.left then
        match getU t rec.payload.left with
        | none => none
        | some l => iterGo t fuel ((l, 0) :: (rec, 1) :: rest)
      else iterGo t fuel ((rec, 1) :: rest)
    else if ph = 1 then
      if 0 < rec.payload.table_id then
        (iterGo t fuel ((rec, 2) :: rest)).map (rec.payload.table_id :: ·)
      else iterGo t fuel ((rec, 2) :: rest)
    else if ph = 2 then
      if 0 < rec.payload.right then
        match getU t rec.payload.right with
        | none => none
        | some r => iterGo t fuel ((r, 0) :: (rec, 3) :: rest)
      else iterGo t fuel ((rec, 3) :: rest)
    else iterGo t fuel rest

/-- `TableIndex::iter`: the stack starts with the unwrapped first record
(panics on an empty table) at phase 0. -/
def iter (t : ITable T) : Option (List Nat) :=
  match getU t 1 with
  | none => none
  | some rec => iterGo t (iterFuel t) [(rec, 0)]

/-- The traversal machine of `TableIndex::iter_between`: identical to
`iterGo` except that phase 1 first compares the node's value with the upper
bound and ends the whole iteration (`break` with no item) once it is
reached. -/
def iterBetweenGo (t : ITable T) (value_to : T) : Nat → List (Rec (Node T) × Nat) → Option (List Nat)
  | 0, _ => none
  | _ + 1, [] => some []
  | fuel + 1, (rec, ph) :: rest =>
    if ph = 0 then
      if 0 < rec.payload.left then
        match getU t rec.payload.left with
        | none => none
        | some l => iterBetweenGo t value_to fuel ((l, 0) :: (rec, 1) :: rest)
      else iterBetweenGo t value_to fuel ((rec, 1) :: rest)
    else if ph = 1 then
      if rec.payload.value < value_to then
        if 0 < rec.payload.table_id then
          (iterBetweenGo t value_to fuel ((rec, 2) :: rest)).map (rec.payload.table_id :: ·)
        else iterBetweenGo t value_to fuel ((rec, 2) :: rest)
      else some []
    else if ph = 2 then
      if 0 < rec.payload.right then
        match getU t rec.payload.right with
        | none => none
        | some r => iterBetweenGo t value_to fuel ((r, 0) :: (rec, 3) :: rest)
      else iterBetweenGo t value_to fuel ((rec, 3) :: rest)
    else iterBetweenGo t value_to fuel rest

/-- The loop of `TableIndex::_build_stack_from`: descend toward `value`,
pushing `(node, 1)` when going left (the node must still be emitted),
`(node, 3)` when going right (the node and its left subtree are below the
bound), and stopping with `(node, 1)` at the first exact match.  The
accumulator holds the stack with its top at the head. -/
def buildStackGo (t : ITable T) (v : T) :
    Nat → Nat → List (Rec (Node T) × Nat) → Option (List (Rec (Node T) × Nat))
  | _, 0, _ => none
  | id, fuel + 1, stk =>
    if id = 0 then some stk
    else
      match getU t id with
      | none => none
      | some rec =>
        if v < rec.payload.value then buildStackGo t v rec.payload.left fuel ((rec, 1) :: stk)
        else if rec.payload.value < v then buildStackGo t v rec.payload.right fuel ((rec, 3) :: stk)
        else some ((rec, 1) :: stk)

/-- `TableIndex::_build_stack_from`: the first identity is unwrapped eagerly
(panics on an empty table). -/
def buildStackFrom (t : ITable T) (v : T) : Option (List (Rec (Node T) × Nat)) :=
  match TableTrait.get_first_id t with
  | .error _ => none
  | .ok id => buildStackGo t v id (t.length + 1) []

/-- `TableIndex::iter_between`. -/
def iter_between (t : ITable T) (value_from value_to : T) : Option (List Nat) :=
  match buildStackFrom t value_from with
  | none => none
  | some stk => iterBetweenGo t value_to (iterFuel t) stk

end TableIndex

namespace TableIndex

/-- Abstract binary tree decoded from an index table: each node carries its
identity, value and target identity. -/
inductive Tr (T : Type) where
  | leaf : Tr T
  | node (l : Tr T) (id : Nat) (value : T) (table_id : Nat) (r : Tr T) : Tr T
deriving DecidableEq, Repr

variable {T : Type} [LinearOrder T]

/-- Decode the subtree rooted at identity `id` by following child pointers;
fuel exhaustion and dangling pointers decode to a leaf.  On a well-formed
table, pointers strictly increase, so `t.length + 1` fuel is always enough
(`toTree_stable` below). -/
def toTree (t : ITable T) : Nat → Nat → Tr T
  | _, 0 => .leaf
  | id, fuel + 1 =>
    if id = 0 then .leaf
    else
      match t[id - 1]? with
      | none => .leaf
      | some r =>
        .node (toTree t r.payload.left fuel) r.id r.payload.value r.payload.table_id
          (toTree t r.payload.right fuel)

/-- Canonical decoding of the subtree rooted at identity `id`. -/
def sub (t : ITable T) (id : Nat) : Tr T := toTree t id (t.length + 1)

/-- The tree of the whole index: decoded from the first record (id 1),
exactly where every traversal in the source starts. -/
def tree (t : ITable T) : Tr T := sub t 1

/-- Number of nodes of a tree. -/
def sizeT : Tr T → Nat
  | .leaf => 0
  | .node l _ _ _ r => sizeT l + sizeT r + 1

/-- Identities of the nodes, in order. -/
def idsT : Tr T → List Nat
  | .leaf => []
  | .node l i _ _ r => idsT l ++ i :: idsT r

/-- The in-order sequence of `(value, table_id)` node events — every node,
live or tombstoned. -/
def inoAll : Tr T → List (T × Nat)
  | .leaf => []
  | .node l _ v ti r => inoAll l ++ (v, ti) :: inoAll r

/-- The live in-order sequence: tombstones (`table_id = 0`) removed. -/
def inoLive (tr : Tr T) : List (T × Nat) :=
  (inoAll tr).filter fun p => decide (0 < p.2)

/-- Values of all nodes, in order. -/
def valuesT (tr : Tr T) : List T := (inoAll tr).map Prod.fst

/-- Total-order tree invariant: every value in a left subtree is strictly
below the node's value, every value in a right subtree is at least it. -/
def BST : Tr T → Prop
  | .leaf => True
  | .node l _ v _ r =>
    (∀ w ∈ valuesT l, w < v) ∧ (∀ w ∈ valuesT r, v ≤ w) ∧ BST l ∧ BST r

/-- Functional insertion mirroring the placement of `_bind`: `<` goes left,
otherwise right, and a fresh node with identity `newid` is planted at the
first empty slot. -/
def insertT (v : T) (ti newid : Nat) : Tr T → Tr T
  | .leaf => .node .leaf newid v ti .leaf
  | .node l i w t0 r =>
    if v < w then .node (insertT v ti newid l) i w t0 r
    else .node l i w t0 (insertT v ti newid r)

/-- Zero the `table_id` of the node with identity `p` (logical deletion). -/
def clearTid (p : Nat) : Tr T → Tr T
  | .leaf => .leaf
  | .node l i w ti r =>
    .node (clearTid p l) i w (if i = p then 0 else ti) (clearTid p r)

/-- The value-guided descent path: the `(id, table_id)` of every node whose
value equals `v`, in the order `_iter_by_value` visits them. -/
def pathRecsT (v : T) : Tr T → List (Nat × Nat)
  | .leaf => []
  | .node l i w ti r =>
    if v < w then pathRecsT v l
    else if v = w then (i, ti) :: pathRecsT v r
    else pathRecsT v r

/-- A child pointer is absent or a strictly larger identity within range —
true of every table built through `add`, because linking always points an
existing node at the freshly appended (hence largest) identity. -/
def ValidChild (n id c : Nat) : Prop := c = 0 ∨ (id < c ∧ c ≤ n)

/-- Pointer well-formedness of an index table. -/
def PtrWF (t : ITable T) : Prop :=
  ∀ i (r : Rec (Node T)), t[i]? = some r →
    r.id = i + 1 ∧ ValidChild t.length (i + 1) r.payload.left ∧
      ValidChild t.length (i + 1) r.payload.right

/-- Master invariant of reachable index tables: pointers are well formed,
the decoded tree satisfies the order invariant, and the tree reaches every
stored node exactly once (its identities are a permutation of `1..count`). -/
def Inv (t : ITable T) : Prop :=
  PtrWF t ∧ BST (tree t) ∧ (idsT (tree t)).Perm (List.range' 1 t.length)

/-- Index tables reachable from the empty file by `add` calls alone. -/
inductive BuiltA : ITable T → Prop
  | nil : BuiltA []
  | add (t t' : ITable T) (v : T) (ti : Nat) :
      BuiltA t → add t v ti = some (.ok t') → BuiltA t'

/-- Index tables reachable from the empty file by `add` and successful
`exclude` calls. -/
inductive Built : ITable T → Prop
  | nil : Built []
  | add (t t' : ITable T) (v : T) (ti : Nat) :
      Built t → add t v ti = some (.ok t') → Built t'
  | exclude (t t' : ITable T) (v : T) (ti : Nat) :
      Built t → exclude t v ti = some (.ok t') → Built t'

end TableIndex

namespace TableIndex

variable {T : Type} [LinearOrder T]

theorem getU_some {t : ITable T} {id : Nat} {r : Rec (Node T)}
    (h : getU t id = some r) : 0 < id ∧ id ≤ t.length ∧ t[id - 1]? = some r := by
  unfold getU TableTrait.get TableTrait.get_index_by_id at h
  by_cases h1 : t.length < id
  · simp [h1] at h
  · simp only [if_neg h1] at h
    by_cases h2 : 0 < id ∧ id ≤ t.length
    · simp only [if_pos h2] at h
      refine ⟨h2.1, h2.2, ?_⟩
      cases hx : t[id - 1]? with
      | none => simp [hx] at h
      | some x => simp [hx] at h; simpa [hx] using congrArg some h
    · simp [h2] at h

theorem getU_of {t : ITable T} {id : Nat} {r : Rec (Node T)}
    (hid : 0 < id) (h : t[id - 1]? = some r) : getU t id = some r := by
  have hlt : id - 1 < t.length := by
    by_contra hc
    rw [List.getElem?_eq_none (by omega)] at h
    exact Option.noConfusion h
  have hle : id ≤ t.length := by omega
  unfold getU TableTrait.get TableTrait.get_index_by_id
  simp [Nat.not_lt.mpr hle, hid, hle, h]

theorem getU_lt {t : ITable T} {id : Nat} (hid : 0 < id) (hle : id ≤ t.length) :
    ∃ r, getU t id = some r ∧ t[id - 1]? = some r := by
  have hlt : id - 1 < t.length := by omega
  exact ⟨t[id - 1], getU_of hid (List.getElem?_eq_getElem hlt), List.getElem?_eq_getElem hlt⟩

theorem toTree_zero (t : ITable T) : ∀ fuel, toTree t 0 fuel = .leaf := by
  intro fuel; cases fuel <;> simp [toTree]

theorem toTree_oob (t : ITable T) {id : Nat} (h : t.length < id) :
    ∀ fuel, toTree t id fuel = .leaf := by
  intro fuel
  cases fuel with
  | zero => rfl
  | succ n =>
    unfold toTree
    rcases Nat.eq_zero_or_pos id with h0 | h0
    · simp [h0]
    · rw [if_neg (by omega), List.getElem?_eq_none (by omega)]

theorem sub_zero (t : ITable T) : sub t 0 = .leaf := toTree_zero t _

theorem ValidChild.mono {n m id c : Nat} (h : ValidChild n id c) (hnm : n ≤ m) :
    ValidChild m id c := by
  rcases h with h | ⟨h1, h2⟩
  · exact Or.inl h
  · exact Or.inr ⟨h1, by omega⟩

theorem toTree_stable {t : ITable T} (h : PtrWF t) :
    ∀ f1 f2 id, t.length + 1 - id ≤ f1 → t.length + 1 - id ≤ f2 →
      toTree t id f1 = toTree t id f2 := by
  intro f1
  induction f1 with
  | zero =>
    intro f2 id h1 h2
    have : t.length < id := by omega
    rw [toTree_oob t this, toTree_oob t this]
  | succ f1 ih =>
    intro f2 id h1 h2
    cases f2 with
    | zero =>
      have : t.length < id := by omega
      rw [toTree_oob t this, toTree_oob t this]
    | succ f2 =>
      rcases Nat.eq_zero_or_pos id with h0 | h0
      · simp [h0, toTree]
      · unfold toTree
        rw [if_neg (by omega), if_neg (by omega)]
        cases hx : t[id - 1]? with
        | none => rfl
        | some r =>
          have hsl : id - 1 < t.length := by
            by_contra hc
            rw [List.getElem?_eq_none (by omega)] at hx
            exact Option.noConfusion hx
          obtain ⟨-, hcl, hcr⟩ := h (id - 1) r hx
          have hid1 : id - 1 + 1 = id := by omega
          rw [hid1] at hcl hcr
          have hl : toTree t r.payload.left f1 = toTree t r.payload.left f2 := by
            rcases hcl with hc0 | ⟨hgt, hle⟩
            · rw [hc0, toTree_zero, toTree_zero]
            · exact ih f2 r.payload.left (by omega) (by omega)
          have hr : toTree t r.payload.right f1 = toTree t r.payload.right f2 := by
            rcases hcr with hc0 | ⟨hgt, hle⟩
            · rw [hc0, toTree_zero, toTree_zero]
            · exact ih f2 r.payload.right (by omega) (by omega)
          dsimp only
          rw [hl, hr]

theorem toTree_eq_sub {t : ITable T} (h : PtrWF t) {id fuel : Nat}
    (hf : t.length + 1 - id ≤ fuel) : toTree t id fuel = sub t id :=
  toTree_stable h fuel (t.length + 1) id hf (by omega)

theorem sub_node {t : ITable T} (h : PtrWF t) {id : Nat} {r : Rec (Node T)}
    (hid : 0 < id) (hr : t[id - 1]? = some r) :
    sub t id = .node (sub t r.payload.left) id r.payload.value r.payload.table_id
      (sub t r.payload.right) := by
  obtain ⟨hrid, hcl, hcr⟩ := h (id - 1) r hr
  have hid1 : id - 1 + 1 = id := by omega
  rw [hid1] at hrid hcl hcr
  show toTree t id (t.length + 1) = _
  unfold toTree
  rw [if_neg (by omega), hr]
  have hl : toTree t r.payload.left t.length = sub t r.payload.left := by
    rcases hcl with hc0 | ⟨hgt, hle⟩
    · rw [hc0, toTree_zero, sub_zero]
    · exact toTree_eq_sub h (by omega)
  have hrr : toTree t r.payload.right t.length = sub t r.payload.right := by
    rcases hcr with hc0 | ⟨hgt, hle⟩
    · rw [hc0, toTree_zero, sub_zero]
    · exact toTree_eq_sub h (by omega)
  dsimp only
  rw [hl, hrr, hrid]

theorem mem_idsT_bounds {t : ITable T} (h : PtrWF t) :
    ∀ fuel id j, j ∈ idsT (toTree t id fuel) → 0 < j ∧ j ≤ t.length ∧ id ≤ j := by
  intro fuel
  induction fuel with
  | zero => intro id j hj; simp [toTree, idsT] at hj
  | succ fuel ih =>
    intro id j hj
    rcases Nat.eq_zero_or_pos id with h0 | h0
    · simp [h0, toTree, idsT] at hj
    · unfold toTree at hj
      rw [if_neg (by omega)] at hj
      cases hx : t[id - 1]? with
      | none => rw [hx] at hj; simp [idsT] at hj
      | some r =>
        rw [hx] at hj
        have hsl : id - 1 < t.length := by
          by_contra hc
          rw [List.getElem?_eq_none (by omega)] at hx
          exact Option.noConfusion hx
        obtain ⟨hrid, hcl, hcr⟩ := h (id - 1) r hx
        have hid1 : id - 1 + 1 = id := by omega
        rw [hid1] at hrid hcl hcr
        simp only [idsT, List.mem_append, List.mem_cons] at hj
        rcases hj with hj | hj | hj
        · obtain ⟨b1, b2, b3⟩ := ih r.payload.left j hj
          rcases hcl with hc0 | ⟨hgt, hle⟩
          · rw [hc0] at hj; simp [toTree_zero, idsT] at hj
          · exact ⟨b1, b2, by omega⟩
        · subst hj; rw [hrid]; omega
        · obtain ⟨b1, b2, b3⟩ := ih r.payload.right j hj
          rcases hcr with hc0 | ⟨hgt, hle⟩
          · rw [hc0] at hj; simp [toTree_zero, idsT] at hj
          · exact ⟨b1, b2, by omega⟩

theorem mem_idsT_sub_bounds {t : ITable T} (h : PtrWF t) {id j : Nat}
    (hj : j ∈ idsT (sub t id)) : 0 < j ∧ j ≤ t.length ∧ id ≤ j :=
  mem_idsT_bounds h _ id j hj

end TableIndex

namespace TableIndex

variable {T : Type} [LinearOrder T]

theorem toTree_append {t : ITable T} (h : PtrWF t) (nr : Rec (Node T)) :
    ∀ fuel id, id ≤ t.length → toTree (t ++ [nr]) id fuel = toTree t id fuel := by
  intro fuel
  induction fuel with
  | zero => intro id _; rfl
  | succ fuel ih =>
    intro id hle
    rcases Nat.eq_zero_or_pos id with h0 | h0
    · simp [h0, toTree]
    · unfold toTree
      rw [if_neg (by omega), if_neg (by omega)]
      have hsl : id - 1 < t.length := by omega
      rw [List.getElem?_append, if_pos hsl]
      cases hx : t[id - 1]? with
      | none => rfl
      | some r =>
        obtain ⟨-, hcl, hcr⟩ := h (id - 1) r hx
        have hid1 : id - 1 + 1 = id := by omega
        rw [hid1] at hcl hcr
        dsimp only
        have hl : toTree (t ++ [nr]) r.payload.left fuel = toTree t r.payload.left fuel := by
          rcases hcl with hc0 | ⟨-, hle2⟩
          · rw [hc0, toTree_zero, toTree_zero]
          · exact ih _ hle2
        have hr : toTree (t ++ [nr]) r.payload.right fuel = toTree t r.payload.right fuel := by
          rcases hcr with hc0 | ⟨-, hle2⟩
          · rw [hc0, toTree_zero, toTree_zero]
          · exact ih _ hle2
        rw [hl, hr]

theorem sub_append {t : ITable T} (h : PtrWF t) (nr : Rec (Node T)) {id : Nat}
    (hle : id ≤ t.length) : sub (t ++ [nr]) id = sub t id := by
  show toTree (t ++ [nr]) id ((t ++ [nr]).length + 1) = toTree t id (t.length + 1)
  rw [toTree_append h nr _ id hle]
  exact toTree_stable h _ _ id (by simp; omega) (by omega)

theorem toTree_set_congr {t : ITable T} (h : PtrWF t) {p : Nat} (hp : 0 < p)
    (r' : Rec (Node T)) :
    ∀ fuel id, p ∉ idsT (toTree t id fuel) → toTree (t.set (p - 1) r') id fuel = toTree t id fuel := by
  intro fuel
  induction fuel with
  | zero => intro id _; rfl
  | succ fuel ih =>
    intro id hnp
    rcases Nat.eq_zero_or_pos id with h0 | h0
    · simp [h0, toTree]
    · unfold toTree
      rw [if_neg (by omega), if_neg (by omega)]
      cases hx : t[id - 1]? with
      | none =>
        have : t.length ≤ id - 1 := by
          by_contra hc
          rw [List.getElem?_eq_getElem (by omega)] at hx
          exact Option.noConfusion hx
        rw [List.getElem?_eq_none (by simpa using this)]
      | some r =>
        obtain ⟨hrid, hcl, hcr⟩ := h (id - 1) r hx
        have hid1 : id - 1 + 1 = id := by omega
        rw [hid1] at hrid hcl hcr
        unfold toTree at hnp
        rw [if_neg (by omega), hx] at hnp
        simp only [idsT, List.mem_append, List.mem_cons] at hnp
        push_neg at hnp
        obtain ⟨hnl, hnid, hnr⟩ := hnp
        have hne : p - 1 ≠ id - 1 := by
          intro hc
          exact hnid (by rw [hrid]; omega)
        rw [List.getElem?_set_ne hne, hx]
        dsimp only
        rw [ih _ hnl, ih _ hnr]

theorem sub_set_congr {t : ITable T} (h : PtrWF t) {p : Nat} (hp : 0 < p)
    (r' : Rec (Node T)) {id : Nat} (hnp : p ∉ idsT (sub t id)) :
    sub (t.set (p - 1) r') id = sub t id := by
  show toTree (t.set (p - 1) r') id ((t.set (p - 1) r').length + 1) = _
  rw [List.length_set]
  exact toTree_set_congr h hp r' _ id hnp

theorem PtrWF_nil : PtrWF ([] : ITable T) := by
  intro i r hr
  simp at hr

theorem PtrWF_append_fresh {t : ITable T} (h : PtrWF t) {nr : Rec (Node T)}
    (hid : nr.id = t.length + 1) (hl : nr.payload.left = 0) (hr : nr.payload.right = 0) :
    PtrWF (t ++ [nr]) := by
  intro i r hri
  by_cases hi : i < t.length
  · rw [List.getElem?_append, if_pos hi] at hri
    obtain ⟨h1, h2, h3⟩ := h i r hri
    exact ⟨h1, h2.mono (by simp), h3.mono (by simp)⟩
  · have hi2 : i < (t ++ [nr]).length := by
      by_contra hc
      rw [List.getElem?_eq_none (by omega)] at hri
      exact Option.noConfusion hri
    have : i = t.length := by simp at hi2; omega
    subst this
    have : (t ++ [nr])[t.length]? = some nr := by simp
    rw [this] at hri
    cases hri
    exact ⟨by rw [hid], Or.inl hl, Or.inl hr⟩

theorem PtrWF_set {t : ITable T} (h : PtrWF t) {i : Nat} {r r1 : Rec (Node T)}
    (hr : t[i]? = some r) (hid : r1.id = r.id)
    (hcl : ValidChild t.length (i + 1) r1.payload.left)
    (hcr : ValidChild t.length (i + 1) r1.payload.right) :
    PtrWF (t.set i r1) := by
  intro j rj hrj
  rw [List.length_set]
  by_cases hij : i = j
  · subst hij
    have hlt : i < t.length := by
      by_contra hc
      rw [List.getElem?_eq_none (by omega)] at hr
      exact Option.noConfusion hr
    rw [List.getElem?_set_eq_of_lt r1 hlt] at hrj
    cases hrj
    exact ⟨by rw [hid, (h i r hr).1], hcl, hcr⟩
  · rw [List.getElem?_set_ne (fun hc => hij hc)] at hrj
    exact h j rj hrj

end TableIndex

namespace TableIndex

variable {T : Type} [LinearOrder T]

/-- Cost of fully traversing a subtree: four machine steps per node. -/
def costT : Tr T → Nat
  | .leaf => 0
  | .node l _ _ _ r => costT l + costT r + 4

/-- Remaining node events of one stack frame, by phase: a frame at phase 0
still owes its whole subtree, at phase 1 itself and its right subtree, at
phase 2 its right subtree, and at phase 3 nothing. -/
def frameNodes (t : ITable T) (fr : Rec (Node T) × Nat) : List (T × Nat) :=
  if fr.2 = 0 then
    inoAll (sub t fr.1.payload.left) ++
      (fr.1.payload.value, fr.1.payload.table_id) :: inoAll (sub t fr.1.payload.right)
  else if fr.2 = 1 then
    (fr.1.payload.value, fr.1.payload.table_id) :: inoAll (sub t fr.1.payload.right)
  else if fr.2 = 2 then inoAll (sub t fr.1.payload.right)
  else []

/-- Remaining node events of the whole stack, top frame first. -/
def stackNodes (t : ITable T) : List (Rec (Node T) × Nat) → List (T × Nat)
  | [] => []
  | fr :: rest => frameNodes t fr ++ stackNodes t rest

/-- Remaining machine steps of one frame. -/
def frameCost (t : ITable T) (fr : Rec (Node T) × Nat) : Nat :=
  if fr.2 = 0 then 4 + costT (sub t fr.1.payload.left) + costT (sub t fr.1.payload.right)
  else if fr.2 = 1 then 3 + costT (sub t fr.1.payload.right)
  else if fr.2 = 2 then 2 + costT (sub t fr.1.payload.right)
  else 1

/-- Remaining machine steps of the whole stack. -/
def stackCost (t : ITable T) : List (Rec (Node T) × Nat) → Nat
  | [] => 0
  | fr :: rest => frameCost t fr + stackCost t rest

/-- Every record held by a stack frame is stored in the table. -/
def StackOK (t : ITable T) (stk : List (Rec (Node T) × Nat)) : Prop :=
  ∀ fr ∈ stk, ∃ i : Nat, t[i]? = some fr.1

theorem StackOK_cons {t : ITable T} {fr : Rec (Node T) × Nat}
    {rest : List (Rec (Node T) × Nat)} (h1 : ∃ i : Nat, t[i]? = some fr.1)
    (h2 : StackOK t rest) : StackOK t (fr :: rest) := by
  intro g hg
  rcases List.mem_cons.mp hg with hg | hg
  · subst hg; exact h1
  · exact h2 g hg

theorem StackOK_of_cons {t : ITable T} {fr : Rec (Node T) × Nat}
    {rest : List (Rec (Node T) × Nat)} (h : StackOK t (fr :: rest)) :
    (∃ i : Nat, t[i]? = some fr.1) ∧ StackOK t rest :=
  ⟨h fr (List.mem_cons_self fr rest), fun g hg => h g (List.mem_cons_of_mem fr hg)⟩

/-- A record fetched from a table slot yields in-range, well-formed child
pointers. -/
theorem frame_children {t : ITable T} (h : PtrWF t) {rec : Rec (Node T)}
    (hst : ∃ i : Nat, t[i]? = some rec) :
    ValidChild t.length rec.id rec.payload.left ∧ ValidChild t.length rec.id rec.payload.right := by
  obtain ⟨i, hi⟩ := hst
  obtain ⟨h1, h2, h3⟩ := h i rec hi
  rw [h1]
  exact ⟨h2, h3⟩

/-- Fetch a valid child and unfold its subtree into a node. -/
theorem child_fetch {t : ITable T} (h : PtrWF t) {c : Nat}
    (hc : 0 < c) (hcle : c ≤ t.length) :
    ∃ cr, getU t c = some cr ∧ t[c - 1]? = some cr ∧
      sub t c = .node (sub t cr.payload.left) c cr.payload.value cr.payload.table_id
        (sub t cr.payload.right) := by
  obtain ⟨cr, hget, hsl⟩ := getU_lt hc hcle
  exact ⟨cr, hget, hsl, sub_node h hc hsl⟩

end TableIndex

namespace TableIndex

variable {T : Type} [LinearOrder T]

/-- Liveness test of a node event. -/
def liveP : T × Nat → Bool := fun p => decide (0 < p.2)

/-- Target identities of the live events of a node sequence. -/
def yields (l : List (T × Nat)) : List Nat := (l.filter liveP).map Prod.snd

theorem yields_nil : yields ([] : List (T × Nat)) = [] := rfl

theorem yields_append (a b : List (T × Nat)) : yields (a ++ b) = yields a ++ yields b := by
  simp [yields, List.filter_append]

theorem yields_cons_live (p : T × Nat) (hl : 0 < p.2) (l : List (T × Nat)) :
    yields (p :: l) = p.2 :: yields l := by
  simp [yields, liveP, List.filter_cons, hl]

theorem yields_cons_dead (p : T × Nat) (hl : ¬ 0 < p.2) (l : List (T × Nat)) :
    yields (p :: l) = yields l := by
  simp [yields, liveP, List.filter_cons, hl]

theorem iterGo_spec {t : ITable T} (h : PtrWF t) :
    ∀ fuel stk, StackOK t stk → stackCost t stk < fuel →
      iterGo t fuel stk = some (yields (stackNodes t stk)) := by
  intro fuel
  induction fuel with
  | zero => intro stk _ hc; omega
  | succ fuel ih =>
    intro stk hok hc
    rcases stk with _ | ⟨⟨rec, ph⟩, rest⟩
    · simp [iterGo, stackNodes, yields]
    obtain ⟨hst0, hrest⟩ := StackOK_of_cons hok
    have hst : ∃ i : Nat, t[i]? = some rec := hst0
    have hvl : ValidChild t.length rec.id rec.payload.left := (frame_children h hst).1
    have hvr : ValidChild t.length rec.id rec.payload.right := (frame_children h hst).2
    by_cases h0 : ph = 0
    · subst h0
      by_cases hl : 0 < rec.payload.left
      · have hle : rec.payload.left ≤ t.length := by
          rcases hvl with e | ⟨-, e⟩
          · omega
          · exact e
        obtain ⟨lrec, hget, hsl, hsub⟩ := child_fetch h hl hle
        have step : iterGo t (fuel + 1) ((rec, 0) :: rest) =
            iterGo t fuel ((lrec, 0) :: (rec, 1) :: rest) := by
          simp [iterGo, hl, hget]
        have hok2 : StackOK t ((lrec, 0) :: (rec, 1) :: rest) :=
          StackOK_cons ⟨_, hsl⟩ (StackOK_cons hst hrest)
        have ecost : costT (sub t rec.payload.left) =
            costT (sub t lrec.payload.left) + costT (sub t lrec.payload.right) + 4 := by
          rw [hsub]; rfl
        have hcost : stackCost t ((lrec, 0) :: (rec, 1) :: rest) < fuel := by
          simp only [stackCost, frameCost] at hc ⊢
          norm_num at hc ⊢
          omega
        have hnodes : stackNodes t ((lrec, 0) :: (rec, 1) :: rest) =
            stackNodes t ((rec, 0) :: rest) := by
          simp only [stackNodes, frameNodes]
          norm_num
          rw [hsub]
          simp [inoAll, List.append_assoc]
        rw [step, ih ((lrec, 0) :: (rec, 1) :: rest) hok2 hcost, hnodes]
      · have hl0 : rec.payload.left = 0 := by omega
        have step : iterGo t (fuel + 1) ((rec, 0) :: rest) =
            iterGo t fuel ((rec, 1) :: rest) := by
          simp [iterGo, hl]
        have hok2 : StackOK t ((rec, 1) :: rest) := StackOK_cons hst hrest
        have hcost : stackCost t ((rec, 1) :: rest) < fuel := by
          simp only [stackCost, frameCost] at hc ⊢
          norm_num at hc ⊢
          omega
        have hnodes : stackNodes t ((rec, 1) :: rest) = stackNodes t ((rec, 0) :: rest) := by
          simp only [stackNodes, frameNodes]
          norm_num
          rw [hl0, sub_zero]
          simp [inoAll]
        rw [step, ih ((rec, 1) :: rest) hok2 hcost, hnodes]
    by_cases h1 : ph = 1
    · subst h1
      have hok2 : StackOK t ((rec, 2) :: rest) := StackOK_cons hst hrest
      have hcost : stackCost t ((rec, 2) :: rest) < fuel := by
        simp only [stackCost, frameCost] at hc ⊢
        norm_num at hc ⊢
        omega
      have hnodes : stackNodes t ((rec, 1) :: rest) =
          (rec.payload.value, rec.payload.table_id) :: stackNodes t ((rec, 2) :: rest) := by
        simp [stackNodes, frameNodes]
      by_cases hlive : 0 < rec.payload.table_id
      · have step : iterGo t (fuel + 1) ((rec, 1) :: rest) =
            (iterGo t fuel ((rec, 2) :: rest)).map (rec.payload.table_id :: ·) := by
          simp [iterGo, hlive]
        rw [step, ih ((rec, 2) :: rest) hok2 hcost, hnodes,
          yields_cons_live (rec.payload.value, rec.payload.table_id) hlive]
        rfl
      · have step : iterGo t (fuel + 1) ((rec, 1) :: rest) =
            iterGo t fuel ((rec, 2) :: rest) := by
          simp [iterGo, hlive]
        rw [step, ih ((rec, 2) :: rest) hok2 hcost, hnodes,
          yields_cons_dead (rec.payload.value, rec.payload.table_id) hlive]
    by_cases h2 : ph = 2
    · subst h2
      by_cases hr : 0 < rec.payload.right
      · have hle : rec.payload.right ≤ t.length := by
          rcases hvr with e | ⟨-, e⟩
          · omega
          · exact e
        obtain ⟨rrec, hget, hsl, hsub⟩ := child_fetch h hr hle
        have step : iterGo t (fuel + 1) ((rec, 2) :: rest) =
            iterGo t fuel ((rrec, 0) :: (rec, 3) :: rest) := by
          simp [iterGo, hr, hget]
        have hok2 : StackOK t ((rrec, 0) :: (rec, 3) :: rest) :=
          StackOK_cons ⟨_, hsl⟩ (StackOK_cons hst hrest)
        have ecost : costT (sub t rec.payload.right) =
            costT (sub t rrec.payload.left) + costT (sub t rrec.payload.right) + 4 := by
          rw [hsub]; rfl
        have hcost : stackCost t ((rrec, 0) :: (rec, 3) :: rest) < fuel := by
          simp only [stackCost, frameCost] at hc ⊢
          norm_num at hc ⊢
          omega
        have hnodes : stackNodes t ((rrec, 0) :: (rec, 3) :: rest) =
            stackNodes t ((rec, 2) :: rest) := by
          simp only [stackNodes, frameNodes]
          norm_num
          rw [hsub]
          simp [inoAll, List.append_assoc]
        rw [step, ih ((rrec, 0) :: (rec, 3) :: rest) hok2 hcost, hnodes]
      · have hr0 : rec.payload.right = 0 := by omega
        have step : iterGo t (fuel + 1) ((rec, 2) :: rest) =
            iterGo t fuel ((rec, 3) :: rest) := by
          simp [iterGo, hr]
        have hok2 : StackOK t ((rec, 3) :: rest) := StackOK_cons hst hrest
        have hcost : stackCost t ((rec, 3) :: rest) < fuel := by
          simp only [stackCost, frameCost] at hc ⊢
          norm_num at hc ⊢
          omega
        have hnodes : stackNodes t ((rec, 3) :: rest) = stackNodes t ((rec, 2) :: rest) := by
          simp only [stackNodes, frameNodes]
          norm_num
          rw [hr0, sub_zero]
          simp [inoAll]
        rw [step, ih ((rec, 3) :: rest) hok2 hcost, hnodes]
    · have step : iterGo t (fuel + 1) ((rec, ph) :: rest) = iterGo t fuel rest := by
        simp [iterGo, h0, h1, h2]
      have hcost : stackCost t rest < fuel := by
        simp only [stackCost, frameCost, if_neg h0, if_neg h1, if_neg h2] at hc
        omega
      have hnodes : stackNodes t rest = stackNodes t ((rec, ph) :: rest) := by
        simp [stackNodes, frameNodes, h0, h1, h2]
      rw [step, ih rest hrest hcost, hnodes]

end TableIndex

namespace TableIndex

variable {T : Type} [LinearOrder T]

theorem iterBetweenGo_spec {t : ITable T} (h : PtrWF t) (b : T) :
    ∀ fuel stk, StackOK t stk → stackCost t stk < fuel →
      iterBetweenGo t b fuel stk =
        some (yields ((stackNodes t stk).takeWhile fun p => decide (p.1 < b))) := by
  intro fuel
  induction fuel with
  | zero => intro stk _ hc; omega
  | succ fuel ih =>
    intro stk hok hc
    rcases stk with _ | ⟨⟨rec, ph⟩, rest⟩
    · simp [iterBetweenGo, stackNodes, yields]
    obtain ⟨hst0, hrest⟩ := StackOK_of_cons hok
    have hst : ∃ i : Nat, t[i]? = some rec := hst0
    have hvl : ValidChild t.length rec.id rec.payload.left := (frame_children h hst).1
    have hvr : ValidChild t.length rec.id rec.payload.right := (frame_children h hst).2
    by_cases h0 : ph = 0
    · subst h0
      by_cases hl : 0 < rec.payload.left
      · have hle : rec.payload.left ≤ t.length := by
          rcases hvl with e | ⟨-, e⟩
          · omega
          · exact e
        obtain ⟨lrec, hget, hsl, hsub⟩ := child_fetch h hl hle
        have step : iterBetweenGo t b (fuel + 1) ((rec, 0) :: rest) =
            iterBetweenGo t b fuel ((lrec, 0) :: (rec, 1) :: rest) := by
          simp [iterBetweenGo, hl, hget]
        have hok2 : StackOK t ((lrec, 0) :: (rec, 1) :: rest) :=
          StackOK_cons ⟨_, hsl⟩ (StackOK_cons hst hrest)
        have ecost : costT (sub t rec.payload.left) =
            costT (sub t lrec.payload.left) + costT (sub t lrec.payload.right) + 4 := by
          rw [hsub]; rfl
        have hcost : stackCost t ((lrec, 0) :: (rec, 1) :: rest) < fuel := by
          simp only [stackCost, frameCost] at hc ⊢
          norm_num at hc ⊢
          omega
        have hnodes : stackNodes t ((lrec, 0) :: (rec, 1) :: rest) =
            stackNodes t ((rec, 0) :: rest) := by
          simp only [stackNodes, frameNodes]
          norm_num
          rw [hsub]
          simp [inoAll, List.append_assoc]
        rw [step, ih ((lrec, 0) :: (rec, 1) :: rest) hok2 hcost, hnodes]
      · have hl0 : rec.payload.left = 0 := by omega
        have step : iterBetweenGo t b (fuel + 1) ((rec, 0) :: rest) =
            iterBetweenGo t b fuel ((rec, 1) :: rest) := by
          simp [iterBetweenGo, hl]
        have hok2 : StackOK t ((rec, 1) :: rest) := StackOK_cons hst hrest
        have hcost : stackCost t ((rec, 1) :: rest) < fuel := by
          simp only [stackCost, frameCost] at hc ⊢
          norm_num at hc ⊢
          omega
        have hnodes : stackNodes t ((rec, 1) :: rest) = stackNodes t ((rec, 0) :: rest) := by
          simp only [stackNodes, frameNodes]
          norm_num
          rw [hl0, sub_zero]
          simp [inoAll]
        rw [step, ih ((rec, 1) :: rest) hok2 hcost, hnodes]
    by_cases h1 : ph = 1
    · subst h1
      have hok2 : StackOK t ((rec, 2) :: rest) := StackOK_cons hst hrest
      have hcost : stackCost t ((rec, 2) :: rest) < fuel := by
        simp only [stackCost, frameCost] at hc ⊢
        norm_num at hc ⊢
        omega
      have hnodes : stackNodes t ((rec, 1) :: rest) =
          (rec.payload.value, rec.payload.table_id) :: stackNodes t ((rec, 2) :: rest) := by
        simp [stackNodes, frameNodes]
      by_cases hb : rec.payload.value < b
      · have htw : ((stackNodes t ((rec, 1) :: rest)).takeWhile fun p => decide (p.1 < b)) =
            (rec.payload.value, rec.payload.table_id) ::
              ((stackNodes t ((rec, 2) :: rest)).takeWhile fun p => decide (p.1 < b)) := by
          rw [hnodes, List.takeWhile_cons]
          simp [hb]
        by_cases hlive : 0 < rec.payload.table_id
        · have step : iterBetweenGo t b (fuel + 1) ((rec, 1) :: rest) =
              (iterBetweenGo t b fuel ((rec, 2) :: rest)).map (rec.payload.table_id :: ·) := by
            simp [iterBetweenGo, hb, hlive]
          rw [step, ih ((rec, 2) :: rest) hok2 hcost, htw,
            yields_cons_live (rec.payload.value, rec.payload.table_id) hlive]
          rfl
        · have step : iterBetweenGo t b (fuel + 1) ((rec, 1) :: rest) =
              iterBetweenGo t b fuel ((rec, 2) :: rest) := by
            simp [iterBetweenGo, hb, hlive]
          rw [step, ih ((rec, 2) :: rest) hok2 hcost, htw,
            yields_cons_dead (rec.payload.value, rec.payload.table_id) hlive]
      · have step : iterBetweenGo t b (fuel + 1) ((rec, 1) :: rest) = some [] := by
          simp [iterBetweenGo, hb]
        have htw : ((stackNodes t ((rec, 1) :: rest)).takeWhile fun p => decide (p.1 < b)) = [] := by
          rw [hnodes, List.takeWhile_cons]
          simp [hb]
        rw [step, htw, yields_nil]
    by_cases h2 : ph = 2
    · subst h2
      by_cases hr : 0 < rec.payload.right
      · have hle : rec.payload.right ≤ t.length := by
          rcases hvr with e | ⟨-, e⟩
          · omega
          · exact e
        obtain ⟨rrec, hget, hsl, hsub⟩ := child_fetch h hr hle
        have step : iterBetweenGo t b (fuel + 1) ((rec, 2) :: rest) =
            iterBetweenGo t b fuel ((rrec, 0) :: (rec, 3) :: rest) := by
          simp [iterBetweenGo, hr, hget]
        have hok2 : StackOK t ((rrec, 0) :: (rec, 3) :: rest) :=
          StackOK_cons ⟨_, hsl⟩ (StackOK_cons hst hrest)
        have ecost : costT (sub t rec.payload.right) =
            costT (sub t rrec.payload.left) + costT (sub t rrec.payload.right) + 4 := by
          rw [hsub]; rfl
        have hcost : stackCost t ((rrec, 0) :: (rec, 3) :: rest) < fuel := by
          simp only [stackCost, frameCost] at hc ⊢
          norm_num at hc ⊢
          omega
        have hnodes : stackNodes t ((rrec, 0) :: (rec, 3) :: rest) =
            stackNodes t ((rec, 2) :: rest) := by
          simp only [stackNodes, frameNodes]
          norm_num
          rw [hsub]
          simp [inoAll, List.append_assoc]
        rw [step, ih ((rrec, 0) :: (rec, 3) :: rest) hok2 hcost, hnodes]
      · have hr0 : rec.payload.right = 0 := by omega
        have step : iterBetweenGo t b (fuel + 1) ((rec, 2) :: rest) =
            iterBetweenGo t b fuel ((rec, 3) :: rest) := by
          simp [iterBetweenGo, hr]
        have hok2 : StackOK t ((rec, 3) :: rest) := StackOK_cons hst hrest
        have hcost : stackCost t ((rec, 3) :: rest) < fuel := by
          simp only [stackCost, frameCost] at hc ⊢
          norm_num at hc ⊢
          omega
        have hnodes : stackNodes t ((rec, 3) :: rest) = stackNodes t ((rec, 2) :: rest) := by
          simp only [stackNodes, frameNodes]
          norm_num
          rw [hr0, sub_zero]
          simp [inoAll]
        rw [step, ih ((rec, 3) :: rest) hok2 hcost, hnodes]
    · have step : iterBetweenGo t b (fuel + 1) ((rec, ph) :: rest) =
          iterBetweenGo t b fuel rest := by
        simp [iterBetweenGo, h0, h1, h2]
      have hcost : stackCost t rest < fuel := by
        simp only [stackCost, frameCost, if_neg h0, if_neg h1, if_neg h2] at hc
        omega
      have hnodes : stackNodes t rest = stackNodes t ((rec, ph) :: rest) := by
        simp [stackNodes, frameNodes, h0, h1, h2]
      rw [step, ih rest hrest hcost, hnodes]

end TableIndex

namespace TableIndex

variable {T : Type} [LinearOrder T]

theorem sizeT_eq_length_idsT (tr : Tr T) : sizeT tr = (idsT tr).length := by
  induction tr with
  | leaf => rfl
  | node l i v ti r ihl ihr => simp [sizeT, idsT, ihl, ihr]; omega

theorem costT_eq_sizeT (tr : Tr T) : costT tr = 4 * sizeT tr := by
  induction tr with
  | leaf => rfl
  | node l i v ti r ihl ihr => simp [costT, sizeT, ihl, ihr]; ring

/-- Enough fuel to run a pointer-chasing descent from node `id`. -/
def FuelOK (t : ITable T) (id fuel : Nat) : Prop :=
  (id = 0 ∧ 1 ≤ fuel) ∨ (0 < id ∧ id ≤ t.length ∧ t.length + 2 - id ≤ fuel)

theorem fuelOK_child {t : ITable T} {id c fuel : Nat} (h : ValidChild t.length id c)
    (hid : 0 < id) (hle : id ≤ t.length) (hf : t.length + 2 - id ≤ fuel + 1) :
    FuelOK t c fuel := by
  rcases h with h | ⟨h1, h2⟩
  · exact Or.inl ⟨h, by omega⟩
  · exact Or.inr ⟨by omega, h2, by omega⟩

theorem fuelOK_top {t : ITable T} (hne : t ≠ []) : FuelOK t 1 (t.length + 1) := by
  have : 0 < t.length := List.length_pos.mpr hne
  exact Or.inr ⟨by omega, by omega, by omega⟩

theorem dropWhile_append_head_false {α : Type} (p : α → Bool) (x : α) (hx : p x = false) :
    ∀ A B : List α, List.dropWhile p (A ++ x :: B) = List.dropWhile p A ++ x :: B := by
  intro A B
  induction A with
  | nil => simp [List.dropWhile_cons, hx]
  | cons a A ih =>
    by_cases ha : p a
    · simp [List.dropWhile_cons, ha, ih]
    · simp [List.dropWhile_cons, ha]

theorem dropWhile_append_all_true {α : Type} (p : α → Bool) (x : α) (hx : p x = true) :
    ∀ A B : List α, (∀ a ∈ A, p a = true) →
      List.dropWhile p (A ++ x :: B) = List.dropWhile p B := by
  intro A B hA
  induction A with
  | nil => simp [List.dropWhile_cons, hx]
  | cons a A ih =>
    simp only [List.cons_append, List.dropWhile_cons, hA a (List.mem_cons_self a A)]
    exact ih fun a ha => hA a (List.mem_cons_of_mem _ ha)

theorem iter_spec {t : ITable T} (hw : PtrWF t)
    (hperm : (idsT (tree t)).Perm (List.range' 1 t.length)) (hne : t ≠ []) :
    iter t = some (yields (inoAll (tree t))) := by
  have hlen : 0 < t.length := List.length_pos.mpr hne
  obtain ⟨r0, hget, hsl⟩ := @getU_lt T _ t 1 (by omega) (by omega)
  have htree : tree t = .node (sub t r0.payload.left) 1 r0.payload.value r0.payload.table_id
      (sub t r0.payload.right) := sub_node hw (by omega) hsl
  have hsize : sizeT (tree t) = t.length := by
    rw [sizeT_eq_length_idsT, hperm.length_eq, List.length_range']
  have hcost : stackCost t [(r0, 0)] < iterFuel t := by
    have h1 : stackCost t [(r0, 0)] =
        4 + costT (sub t r0.payload.left) + costT (sub t r0.payload.right) := by
      simp [stackCost, frameCost]
    have h2 : costT (tree t) =
        costT (sub t r0.payload.left) + costT (sub t r0.payload.right) + 4 := by
      rw [htree]; rfl
    have h3 : costT (tree t) = 4 * t.length := by rw [costT_eq_sizeT, hsize]
    unfold iterFuel
    omega
  have hok : StackOK t [(r0, 0)] := by
    intro fr hfr
    rcases List.mem_singleton.mp hfr with rfl
    exact ⟨0, hsl⟩
  have hnodes : stackNodes t [(r0, 0)] = inoAll (tree t) := by
    simp only [stackNodes, frameNodes, htree]
    norm_num [inoAll]
  unfold iter
  rw [hget]
  dsimp only
  rw [iterGo_spec hw _ _ hok hcost, hnodes]

end TableIndex

namespace TableIndex

variable {T : Type} [LinearOrder T]

theorem buildStackGo_spec {t : ITable T} (h : PtrWF t) (v : T) :
    ∀ fuel id acc, FuelOK t id fuel → BST (sub t id) → StackOK t acc →
      ∃ stk, buildStackGo t v id fuel acc = some stk ∧ StackOK t stk ∧
        stackNodes t stk =
          ((inoAll (sub t id)).dropWhile fun p => decide (p.1 < v)) ++ stackNodes t acc ∧
        stackCost t stk ≤ costT (sub t id) + stackCost t acc := by
  intro fuel
  induction fuel with
  | zero =>
    intro id acc hfuel _ _
    exfalso
    rcases hfuel with ⟨-, h1⟩ | ⟨h1, h2, h3⟩ <;> omega
  | succ fuel ih =>
    intro id acc hfuel hbst hacc
    rcases hfuel with ⟨rfl, -⟩ | ⟨hid, hle, hf⟩
    · refine ⟨acc, by simp [buildStackGo], hacc, ?_, ?_⟩
      · simp [sub_zero, inoAll]
      · simp [sub_zero, costT]
    · obtain ⟨rec, hget, hsl⟩ := getU_lt hid hle
      obtain ⟨hrid, hvl, hvr⟩ := h (id - 1) rec hsl
      have hid1 : id - 1 + 1 = id := by omega
      rw [hid1] at hvl hvr
      have hsub := sub_node h hid hsl
      rw [hsub] at hbst
      obtain ⟨hLlt, hRge, hbL, hbR⟩ := hbst
      have hcostn : costT (sub t id) =
          costT (sub t rec.payload.left) + costT (sub t rec.payload.right) + 4 := by
        rw [hsub]; rfl
      rcases lt_trichotomy v rec.payload.value with hvw | hvw | hvw
      · have step : buildStackGo t v id (fuel + 1) acc =
            buildStackGo t v rec.payload.left fuel ((rec, 1) :: acc) := by
          conv_lhs => rw [buildStackGo]
          rw [if_neg (show ¬ id = 0 by omega), hget]
          dsimp only
          rw [if_pos hvw]
        have hacc2 : StackOK t ((rec, 1) :: acc) := StackOK_cons ⟨id - 1, hsl⟩ hacc
        obtain ⟨stk, heq, hok, hnodes, hcost⟩ :=
          ih rec.payload.left ((rec, 1) :: acc) (fuelOK_child hvl hid hle hf) hbL hacc2
        refine ⟨stk, by rw [step, heq], hok, ?_, ?_⟩
        · rw [hnodes]
          have hfalse : (fun p : T × Nat => decide (p.1 < v))
              (rec.payload.value, rec.payload.table_id) = false := by
            simp only [decide_eq_false_iff_not]
            exact lt_asymm hvw
          rw [hsub]
          show _ = (List.dropWhile (fun p : T × Nat => decide (p.1 < v))
            (inoAll (sub t rec.payload.left) ++
              (rec.payload.value, rec.payload.table_id) ::
                inoAll (sub t rec.payload.right))) ++ stackNodes t acc
          rw [dropWhile_append_head_false (fun p : T × Nat => decide (p.1 < v))
            (rec.payload.value, rec.payload.table_id) hfalse]
          simp [stackNodes, frameNodes, List.append_assoc]
        · have e1 : stackCost t ((rec, 1) :: acc) =
              3 + costT (sub t rec.payload.right) + stackCost t acc := by
            show frameCost t (rec, 1) + stackCost t acc = _
            rw [show frameCost t (rec, 1) = 3 + costT (sub t rec.payload.right) from rfl]
          omega
      · have step : buildStackGo t v id (fuel + 1) acc = some ((rec, 1) :: acc) := by
          conv_lhs => rw [buildStackGo]
          rw [if_neg (show ¬ id = 0 by omega), hget]
          dsimp only
          rw [if_neg (show ¬ v < rec.payload.value by rw [hvw]; exact lt_irrefl _),
            if_neg (show ¬ rec.payload.value < v by rw [hvw]; exact lt_irrefl _)]
        refine ⟨(rec, 1) :: acc, step, StackOK_cons ⟨id - 1, hsl⟩ hacc, ?_, ?_⟩
        · have hfalse : (fun p : T × Nat => decide (p.1 < v))
              (rec.payload.value, rec.payload.table_id) = false := by
            simp only [decide_eq_false_iff_not]
            rw [hvw]
            exact lt_irrefl _
          rw [hsub]
          show _ = (List.dropWhile (fun p : T × Nat => decide (p.1 < v))
            (inoAll (sub t rec.payload.left) ++
              (rec.payload.value, rec.payload.table_id) ::
                inoAll (sub t rec.payload.right))) ++ stackNodes t acc
          rw [dropWhile_append_head_false (fun p : T × Nat => decide (p.1 < v))
            (rec.payload.value, rec.payload.table_id) hfalse]
          have hnil : List.dropWhile (fun p : T × Nat => decide (p.1 < v))
              (inoAll (sub t rec.payload.left)) = [] := by
            rw [List.dropWhile_eq_nil_iff]
            intro x hx
            have hval : x.1 ∈ valuesT (sub t rec.payload.left) :=
              List.mem_map_of_mem Prod.fst hx
            simp only [decide_eq_true_eq]
            rw [hvw]
            exact hLlt x.1 hval
          rw [hnil]
          simp [stackNodes, frameNodes]
        · have e1 : stackCost t ((rec, 1) :: acc) =
              3 + costT (sub t rec.payload.right) + stackCost t acc := by
            show frameCost t (rec, 1) + stackCost t acc = _
            rw [show frameCost t (rec, 1) = 3 + costT (sub t rec.payload.right) from rfl]
          omega
      · have step : buildStackGo t v id (fuel + 1) acc =
            buildStackGo t v rec.payload.right fuel ((rec, 3) :: acc) := by
          conv_lhs => rw [buildStackGo]
          rw [if_neg (show ¬ id = 0 by omega), hget]
          dsimp only
          rw [if_neg (lt_asymm hvw), if_pos hvw]
        have hacc2 : StackOK t ((rec, 3) :: acc) := StackOK_cons ⟨id - 1, hsl⟩ hacc
        obtain ⟨stk, heq, hok, hnodes, hcost⟩ :=
          ih rec.payload.right ((rec, 3) :: acc) (fuelOK_child hvr hid hle hf) hbR hacc2
        refine ⟨stk, by rw [step, heq], hok, ?_, ?_⟩
        · rw [hnodes]
          have htrue : (fun p : T × Nat => decide (p.1 < v))
              (rec.payload.value, rec.payload.table_id) = true := by
            simp only [decide_eq_true_eq]
            exact hvw
          rw [hsub]
          show _ = (List.dropWhile (fun p : T × Nat => decide (p.1 < v))
            (inoAll (sub t rec.payload.left) ++
              (rec.payload.value, rec.payload.table_id) ::
                inoAll (sub t rec.payload.right))) ++ stackNodes t acc
          rw [dropWhile_append_all_true (fun p : T × Nat => decide (p.1 < v))
            (rec.payload.value, rec.payload.table_id) htrue _ _ ?_]
          · simp [stackNodes, frameNodes]
          · intro x hx
            have hval : x.1 ∈ valuesT (sub t rec.payload.left) :=
              List.mem_map_of_mem Prod.fst hx
            simp only [decide_eq_true_eq]
            exact lt_trans (hLlt x.1 hval) hvw
        · have e1 : stackCost t ((rec, 3) :: acc) = 1 + stackCost t acc := by
            show frameCost t (rec, 3) + stackCost t acc = _
            rw [show frameCost t (rec, 3) = 1 from rfl]
          omega

theorem iter_between_spec {t : ITable T} (hw : PtrWF t)
    (hperm : (idsT (tree t)).Perm (List.range' 1 t.length)) (hbst : BST (tree t))
    (hne : t ≠ []) (a b : T) :
    iter_between t a b =
      some (yields (((inoAll (tree t)).dropWhile fun p => decide (p.1 < a)).takeWhile
        fun p => decide (p.1 < b))) := by
  have hlen : 0 < t.length := List.length_pos.mpr hne
  obtain ⟨stk, heq, hok, hnodes, hcost⟩ :=
    buildStackGo_spec hw a (t.length + 1) 1 [] (fuelOK_top hne) hbst (by intro fr hfr; cases hfr)
  have hsize : sizeT (tree t) = t.length := by
    rw [sizeT_eq_length_idsT, hperm.length_eq, List.length_range']
  have hcost2 : stackCost t stk < iterFuel t := by
    have h3 : costT (tree t) = 4 * t.length := by rw [costT_eq_sizeT, hsize]
    have h4 : stackCost t ([] : List (Rec (Node T) × Nat)) = 0 := rfl
    unfold iterFuel
    have : costT (sub t 1) = costT (tree t) := rfl
    omega
  unfold iter_between buildStackFrom
  rw [show TableTrait.get_first_id t = .ok 1 by
    unfold TableTrait.get_first_id
    rw [if_neg (by omega : ¬ t.length = 0)]]
  dsimp only
  rw [heq]
  dsimp only
  rw [iterBetweenGo_spec hw b _ _ hok hcost2, hnodes]
  have : stackNodes t ([] : List (Rec (Node T) × Nat)) = [] := rfl
  rw [this, List.append_nil]
  rfl

end TableIndex

namespace TableIndex

variable {T : Type} [LinearOrder T]

/-- Key order of a node-event sequence. -/
def KeySorted (l : List (T × Nat)) : Prop := l.Pairwise fun p q => p.1 ≤ q.1

theorem mem_inoAll_fst {tr : Tr T} {p : T × Nat} (hp : p ∈ inoAll tr) :
    p.1 ∈ valuesT tr := List.mem_map_of_mem Prod.fst hp

theorem BST_keySorted {tr : Tr T} (h : BST tr) : KeySorted (inoAll tr) := by
  induction tr with
  | leaf => exact List.Pairwise.nil
  | node l i w ti r ihl ihr =>
    obtain ⟨hl, hr, hbl, hbr⟩ := h
    rw [show inoAll (Tr.node l i w ti r) = inoAll l ++ (w, ti) :: inoAll r from rfl]
    rw [KeySorted, List.pairwise_append]
    refine ⟨ihl hbl, ?_, ?_⟩
    · rw [List.pairwise_cons]
      refine ⟨fun q hq => hr q.1 (mem_inoAll_fst hq), ihr hbr⟩
    · intro p hp q hq
      have hpw : p.1 < w := hl p.1 (mem_inoAll_fst hp)
      rcases List.mem_cons.mp hq with rfl | hq
      · exact le_of_lt hpw
      · exact le_of_lt (lt_of_lt_of_le hpw (hr q.1 (mem_inoAll_fst hq)))

theorem keySorted_dropWhile_filter {a : T} :
    ∀ l : List (T × Nat), KeySorted l →
      l.dropWhile (fun p => decide (p.1 < a)) = l.filter fun p => decide (a ≤ p.1) := by
  intro l
  induction l with
  | nil => intro _; rfl
  | cons x l ih =>
    intro hs
    rw [KeySorted, List.pairwise_cons] at hs
    obtain ⟨hx, hl⟩ := hs
    by_cases hxa : x.1 < a
    · rw [List.dropWhile_cons, if_pos (by simpa using hxa), List.filter_cons,
        if_neg (by simp; exact hxa)]
      exact ih hl
    · rw [List.dropWhile_cons, if_neg (by simpa using hxa), List.filter_cons,
        if_pos (by simp; exact le_of_not_lt hxa)]
      congr 1
      rw [eq_comm]
      rw [List.filter_eq_self]
      intro q hq
      simp only [decide_eq_true_eq]
      exact le_trans (le_of_not_lt hxa) (hx q hq)

theorem keySorted_takeWhile_filter {b : T} :
    ∀ l : List (T × Nat), KeySorted l →
      l.takeWhile (fun p => decide (p.1 < b)) = l.filter fun p => decide (p.1 < b) := by
  intro l
  induction l with
  | nil => intro _; rfl
  | cons x l ih =>
    intro hs
    rw [KeySorted, List.pairwise_cons] at hs
    obtain ⟨hx, hl⟩ := hs
    by_cases hxb : x.1 < b
    · rw [List.takeWhile_cons, if_pos (by simpa using hxb), List.filter_cons,
        if_pos (by simpa using hxb)]
      rw [ih hl]
    · rw [List.takeWhile_cons, if_neg (by simpa using hxb), List.filter_cons,
        if_neg (by simpa using hxb)]
      rw [eq_comm, List.filter_eq_nil_iff]
      intro q hq
      simp only [decide_eq_true_eq]
      exact fun hqb => hxb (lt_of_le_of_lt (hx q hq) hqb)

theorem keySorted_filter (p : T × Nat → Bool) {l : List (T × Nat)} (h : KeySorted l) :
    KeySorted (l.filter p) := h.sublist (List.filter_sublist l)

theorem inoAll_insertT (v : T) (ti newid : Nat) :
    ∀ tr : Tr T, (inoAll (insertT v ti newid tr)).Perm ((v, ti) :: inoAll tr) := by
  intro tr
  induction tr with
  | leaf => simp [insertT, inoAll]
  | node l i w t0 r ihl ihr =>
    by_cases hvw : v < w
    · have hins : insertT v ti newid (Tr.node l i w t0 r) =
          Tr.node (insertT v ti newid l) i w t0 r := by
        conv_lhs => rw [insertT]
        rw [if_pos hvw]
      rw [hins]
      rw [show inoAll (Tr.node (insertT v ti newid l) i w t0 r) =
        inoAll (insertT v ti newid l) ++ (w, t0) :: inoAll r from rfl]
      rw [show inoAll (Tr.node l i w t0 r) = inoAll l ++ (w, t0) :: inoAll r from rfl]
      have h1 := ihl.append_right ((w, t0) :: inoAll r)
      rw [List.cons_append] at h1
      exact h1
    · have hins : insertT v ti newid (Tr.node l i w t0 r) =
          Tr.node l i w t0 (insertT v ti newid r) := by
        conv_lhs => rw [insertT]
        rw [if_neg hvw]
      rw [hins]
      rw [show inoAll (Tr.node l i w t0 (insertT v ti newid r)) =
        inoAll l ++ (w, t0) :: inoAll (insertT v ti newid r) from rfl]
      rw [show inoAll (Tr.node l i w t0 r) = inoAll l ++ (w, t0) :: inoAll r from rfl]
      have h1 : ((w, t0) :: inoAll (insertT v ti newid r)).Perm
          ((w, t0) :: (v, ti) :: inoAll r) := ihr.cons (w, t0)
      have h2 : ((w, t0) :: (v, ti) :: inoAll r).Perm ((v, ti) :: (w, t0) :: inoAll r) :=
        List.Perm.swap (v, ti) (w, t0) (inoAll r)
      have h3 := (h1.trans h2).append_left (inoAll l)
      exact h3.trans List.perm_middle

theorem idsT_insertT (v : T) (ti newid : Nat) :
    ∀ tr : Tr T, (idsT (insertT v ti newid tr)).Perm (newid :: idsT tr) := by
  intro tr
  induction tr with
  | leaf => simp [insertT, idsT]
  | node l i w t0 r ihl ihr =>
    by_cases hvw : v < w
    · have hins : insertT v ti newid (Tr.node l i w t0 r) =
          Tr.node (insertT v ti newid l) i w t0 r := by
        conv_lhs => rw [insertT]
        rw [if_pos hvw]
      rw [hins]
      rw [show idsT (Tr.node (insertT v ti newid l) i w t0 r) =
        idsT (insertT v ti newid l) ++ i :: idsT r from rfl]
      rw [show idsT (Tr.node l i w t0 r) = idsT l ++ i :: idsT r from rfl]
      have h1 := ihl.append_right (i :: idsT r)
      rw [List.cons_append] at h1
      exact h1
    · have hins : insertT v ti newid (Tr.node l i w t0 r) =
          Tr.node l i w t0 (insertT v ti newid r) := by
        conv_lhs => rw [insertT]
        rw [if_neg hvw]
      rw [hins]
      rw [show idsT (Tr.node l i w t0 (insertT v ti newid r)) =
        idsT l ++ i :: idsT (insertT v ti newid r) from rfl]
      rw [show idsT (Tr.node l i w t0 r) = idsT l ++ i :: idsT r from rfl]
      have h1 : (i :: idsT (insertT v ti newid r)).Perm (i :: newid :: idsT r) :=
        ihr.cons i
      have h2 : (i :: newid :: idsT r).Perm (newid :: i :: idsT r) :=
        List.Perm.swap newid i (idsT r)
      have h3 := (h1.trans h2).append_left (idsT l)
      exact h3.trans List.perm_middle

theorem mem_valuesT_insertT {v : T} {ti newid : Nat} {tr : Tr T} {x : T} :
    x ∈ valuesT (insertT v ti newid tr) ↔ x = v ∨ x ∈ valuesT tr := by
  have hperm := (inoAll_insertT v ti newid tr).map Prod.fst
  rw [List.map_cons] at hperm
  show x ∈ (inoAll (insertT v ti newid tr)).map Prod.fst ↔
    x = v ∨ x ∈ (inoAll tr).map Prod.fst
  rw [hperm.mem_iff, List.mem_cons]

theorem BST_insertT (v : T) (ti newid : Nat) :
    ∀ tr : Tr T, BST tr → BST (insertT v ti newid tr) := by
  intro tr
  induction tr with
  | leaf =>
    intro _
    refine ⟨?_, ?_, trivial, trivial⟩ <;> intro w hw <;> simp [valuesT, inoAll] at hw
  | node l i w t0 r ihl ihr =>
    intro hb
    obtain ⟨hl, hr, hbl, hbr⟩ := hb
    by_cases hvw : v < w
    · have hins : insertT v ti newid (Tr.node l i w t0 r) =
          Tr.node (insertT v ti newid l) i w t0 r := by
        conv_lhs => rw [insertT]
        rw [if_pos hvw]
      rw [hins]
      refine ⟨?_, hr, ihl hbl, hbr⟩
      intro x hx
      rcases mem_valuesT_insertT.mp hx with rfl | hx
      · exact hvw
      · exact hl x hx
    · have hins : insertT v ti newid (Tr.node l i w t0 r) =
          Tr.node l i w t0 (insertT v ti newid r) := by
        conv_lhs => rw [insertT]
        rw [if_neg hvw]
      rw [hins]
      refine ⟨hl, ?_, hbl, ihr hbr⟩
      intro x hx
      rcases mem_valuesT_insertT.mp hx with rfl | hx
      · exact le_of_not_lt hvw
      · exact hr x hx

theorem pathRecsT_insertT (v v' : T) (ti newid : Nat) :
    ∀ tr : Tr T, pathRecsT v' (insertT v ti newid tr) =
      pathRecsT v' tr ++ (if v' = v then [(newid, ti)] else []) := by
  intro tr
  induction tr with
  | leaf =>
    rw [show insertT v ti newid (Tr.leaf : Tr T) = Tr.node .leaf newid v ti .leaf from rfl]
    rw [show pathRecsT v' (Tr.leaf : Tr T) = [] from rfl]
    rcases lt_trichotomy v' v with hc | hc | hc
    · rw [show pathRecsT v' (Tr.node Tr.leaf newid v ti Tr.leaf) = pathRecsT v' Tr.leaf by
        conv_lhs => rw [pathRecsT]
        rw [if_pos hc]]
      rw [if_neg (by intro hc2; rw [hc2] at hc; exact lt_irrefl _ hc)]
      rfl
    · conv_lhs => rw [pathRecsT]
      rw [if_neg (by rw [hc]; exact lt_irrefl _), if_pos hc]
      rw [if_pos hc]
      rfl
    · conv_lhs => rw [pathRecsT]
      rw [if_neg (lt_asymm hc), if_neg (by intro hc2; rw [hc2] at hc; exact lt_irrefl _ hc)]
      rw [if_neg (by intro hc2; rw [hc2] at hc; exact lt_irrefl _ hc)]
      rfl
  | node l i w t0 r ihl ihr =>
    by_cases hvw : v < w
    · have hins : insertT v ti newid (Tr.node l i w t0 r) =
          Tr.node (insertT v ti newid l) i w t0 r := by
        conv_lhs => rw [insertT]
        rw [if_pos hvw]
      rw [hins]
      by_cases hvw' : v' < w
      · rw [show pathRecsT v' (Tr.node (insertT v ti newid l) i w t0 r) =
          pathRecsT v' (insertT v ti newid l) by
            conv_lhs => rw [pathRecsT]
            rw [if_pos hvw']]
        rw [show pathRecsT v' (Tr.node l i w t0 r) = pathRecsT v' l by
          conv_lhs => rw [pathRecsT]
          rw [if_pos hvw']]
        exact ihl
      · have hne : v' ≠ v := by
          intro hc
          exact hvw' (hc ▸ hvw)
        rw [if_neg hne, List.append_nil]
        by_cases heq : v' = w
        · rw [show pathRecsT v' (Tr.node (insertT v ti newid l) i w t0 r) =
            (i, t0) :: pathRecsT v' r by
              conv_lhs => rw [pathRecsT]
              rw [if_neg hvw', if_pos heq]]
          rw [show pathRecsT v' (Tr.node l i w t0 r) = (i, t0) :: pathRecsT v' r by
            conv_lhs => rw [pathRecsT]
            rw [if_neg hvw', if_pos heq]]
        · rw [show pathRecsT v' (Tr.node (insertT v ti newid l) i w t0 r) =
            pathRecsT v' r by
              conv_lhs => rw [pathRecsT]
              rw [if_neg hvw', if_neg heq]]
          rw [show pathRecsT v' (Tr.node l i w t0 r) = pathRecsT v' r by
            conv_lhs => rw [pathRecsT]
            rw [if_neg hvw', if_neg heq]]
    · have hins : insertT v ti newid (Tr.node l i w t0 r) =
          Tr.node l i w t0 (insertT v ti newid r) := by
        conv_lhs => rw [insertT]
        rw [if_neg hvw]
      rw [hins]
      by_cases hvw' : v' < w
      · have hne : v' ≠ v := by
          intro hc
          subst hc
          exact hvw hvw'
        rw [if_neg hne, List.append_nil]
        rw [show pathRecsT v' (Tr.node l i w t0 (insertT v ti newid r)) = pathRecsT v' l by
          conv_lhs => rw [pathRecsT]
          rw [if_pos hvw']]
        rw [show pathRecsT v' (Tr.node l i w t0 r) = pathRecsT v' l by
          conv_lhs => rw [pathRecsT]
          rw [if_pos hvw']]
      · by_cases heq : v' = w
        · rw [show pathRecsT v' (Tr.node l i w t0 (insertT v ti newid r)) =
            (i, t0) :: pathRecsT v' (insertT v ti newid r) by
              conv_lhs => rw [pathRecsT]
              rw [if_neg hvw', if_pos heq]]
          rw [show pathRecsT v' (Tr.node l i w t0 r) = (i, t0) :: pathRecsT v' r by
            conv_lhs => rw [pathRecsT]
            rw [if_neg hvw', if_pos heq]]
          rw [ihr, List.cons_append]
        · rw [show pathRecsT v' (Tr.node l i w t0 (insertT v ti newid r)) =
            pathRecsT v' (insertT v ti newid r) by
              conv_lhs => rw [pathRecsT]
              rw [if_neg hvw', if_neg heq]]
          rw [show pathRecsT v' (Tr.node l i w t0 r) = pathRecsT v' r by
            conv_lhs => rw [pathRecsT]
            rw [if_neg hvw', if_neg heq]]
          exact ihr

theorem idsT_clearTid (p : Nat) : ∀ tr : Tr T, idsT (clearTid p tr) = idsT tr := by
  intro tr
  induction tr with
  | leaf => rfl
  | node l i w t0 r ihl ihr => simp [clearTid, idsT, ihl, ihr]

theorem valuesT_clearTid (p : Nat) : ∀ tr : Tr T, valuesT (clearTid p tr) = valuesT tr := by
  intro tr
  induction tr with
  | leaf => rfl
  | node l i w t0 r ihl ihr =>
    simp only [valuesT] at ihl ihr
    simp [clearTid, valuesT, inoAll, ihl, ihr]

theorem BST_clearTid (p : Nat) : ∀ tr : Tr T, BST tr → BST (clearTid p tr) := by
  intro tr
  induction tr with
  | leaf => intro _; trivial
  | node l i w t0 r ihl ihr =>
    intro hb
    obtain ⟨hl, hr, hbl, hbr⟩ := hb
    refine ⟨?_, ?_, ihl hbl, ihr hbr⟩
    · intro x hx
      rw [valuesT_clearTid] at hx
      exact hl x hx
    · intro x hx
      rw [valuesT_clearTid] at hx
      exact hr x hx

theorem pathRecsT_clearTid (v : T) (p : Nat) :
    ∀ tr : Tr T, pathRecsT v (clearTid p tr) =
      (pathRecsT v tr).map fun q => if q.1 = p then (q.1, 0) else q := by
  intro tr
  induction tr with
  | leaf => rfl
  | node l i w t0 r ihl ihr =>
    rw [show clearTid p (Tr.node l i w t0 r) =
      Tr.node (clearTid p l) i w (if i = p then 0 else t0) (clearTid p r) from rfl]
    by_cases hvw : v < w
    · rw [show pathRecsT v (Tr.node (clearTid p l) i w (if i = p then 0 else t0)
        (clearTid p r)) = pathRecsT v (clearTid p l) by
          conv_lhs => rw [pathRecsT]
          rw [if_pos hvw]]
      rw [show pathRecsT v (Tr.node l i w t0 r) = pathRecsT v l by
        conv_lhs => rw [pathRecsT]
        rw [if_pos hvw]]
      exact ihl
    · by_cases heq : v = w
      · rw [show pathRecsT v (Tr.node (clearTid p l) i w (if i = p then 0 else t0)
          (clearTid p r)) = (i, if i = p then 0 else t0) :: pathRecsT v (clearTid p r) by
            conv_lhs => rw [pathRecsT]
            rw [if_neg hvw, if_pos heq]]
        rw [show pathRecsT v (Tr.node l i w t0 r) = (i, t0) :: pathRecsT v r by
          conv_lhs => rw [pathRecsT]
          rw [if_neg hvw, if_pos heq]]
        rw [List.map_cons, ihr]
        congr 1
        by_cases hip : i = p
        · rw [if_pos hip, if_pos hip]
        · rw [if_neg hip, if_neg hip]
      · rw [show pathRecsT v (Tr.node (clearTid p l) i w (if i = p then 0 else t0)
          (clearTid p r)) = pathRecsT v (clearTid p r) by
            conv_lhs => rw [pathRecsT]
            rw [if_neg hvw, if_neg heq]]
        rw [show pathRecsT v (Tr.node l i w t0 r) = pathRecsT v r by
          conv_lhs => rw [pathRecsT]
          rw [if_neg hvw, if_neg heq]]
        exact ihr

theorem toTree_set_clear {t : ITable T} (h : PtrWF t) {p : Nat} {r r' : Rec (Node T)}
    (hp : 0 < p) (hsl : t[p - 1]? = some r) (hid : r'.id = r.id)
    (hval : r'.payload.value = r.payload.value) (hti : r'.payload.table_id = 0)
    (hlft : r'.payload.left = r.payload.left) (hrgt : r'.payload.right = r.payload.right) :
    ∀ fuel id, toTree (t.set (p - 1) r') id fuel = clearTid p (toTree t id fuel) := by
  intro fuel
  induction fuel with
  | zero => intro id; rfl
  | succ fuel ih =>
    intro id
    rcases Nat.eq_zero_or_pos id with h0 | h0
    · simp [h0, toTree, clearTid]
    · have hrid : r.id = p := by
        have := (h (p - 1) r hsl).1
        omega
      unfold toTree
      rw [if_neg (by omega), if_neg (by omega)]
      by_cases hip : id = p
      · subst hip
        have hlt : id - 1 < t.length := by
          by_contra hc
          rw [List.getElem?_eq_none (by omega)] at hsl
          exact Option.noConfusion hsl
        rw [List.getElem?_set_eq_of_lt r' hlt, hsl]
        dsimp only [clearTid]
        rw [hid, hrid, hval, hti, hlft, hrgt, if_pos rfl, ih, ih]
      · have hne : p - 1 ≠ id - 1 := by omega
        rw [List.getElem?_set_ne hne]
        cases hx : t[id - 1]? with
        | none => rfl
        | some rid =>
          have hrid2 : rid.id = id := by
            have := (h (id - 1) rid hx).1
            omega
          dsimp only [clearTid]
          rw [ih, ih]
          rw [show (if rid.id = p then 0 else rid.payload.table_id) =
            rid.payload.table_id by rw [if_neg (by omega)]]

theorem update_ok {t : ITable T} {r : Rec (Node T)} (h1 : 0 < r.id) (h2 : r.id ≤ t.length) :
    TableTrait.update r t = .ok (t.set (r.id - 1) r) := by
  unfold TableTrait.update TableTrait.get_index_by_id
  rw [if_pos ⟨h1, h2⟩]

theorem PtrWF_set_id {t : ITable T} (h : PtrWF t) {p : Nat} {r r1 : Rec (Node T)}
    (hp : 0 < p) (hsl : t[p - 1]? = some r) (hid : r1.id = r.id)
    (hcl : ValidChild t.length p r1.payload.left)
    (hcr : ValidChild t.length p r1.payload.right) :
    PtrWF (t.set (p - 1) r1) := by
  have hid1 : p - 1 + 1 = p := by omega
  exact PtrWF_set h hsl hid (by rw [hid1]; exact hcl) (by rw [hid1]; exact hcr)

theorem sub_append_new {t0 : ITable T} (h0 : PtrWF t0) (v : T) (ti : Nat) :
    sub (t0 ++ [(⟨t0.length + 1, ⟨v, ti, 0, 0⟩⟩ : Rec (Node T))]) (t0.length + 1) =
      .node .leaf (t0.length + 1) v ti .leaf := by
  have h1 : PtrWF (t0 ++ [(⟨t0.length + 1, ⟨v, ti, 0, 0⟩⟩ : Rec (Node T))]) :=
    PtrWF_append_fresh h0 rfl rfl rfl
  have hsl : (t0 ++ [(⟨t0.length + 1, ⟨v, ti, 0, 0⟩⟩ : Rec (Node T))])[t0.length + 1 - 1]? =
      some ⟨t0.length + 1, ⟨v, ti, 0, 0⟩⟩ := by simp
  rw [sub_node h1 (by omega) hsl]
  rw [show (⟨t0.length + 1, ⟨v, ti, 0, 0⟩⟩ : Rec (Node T)).payload.left = 0 from rfl,
    show (⟨t0.length + 1, ⟨v, ti, 0, 0⟩⟩ : Rec (Node T)).payload.right = 0 from rfl,
    sub_zero]

theorem bindGo_spec {t0 : ITable T} (h0 : PtrWF t0) (v : T) (ti : Nat) :
    ∀ fuel id, 0 < id → id ≤ t0.length → (idsT (sub t0 id)).Nodup →
      t0.length + 1 - id ≤ fuel →
      ∃ p r r',
        bindGo (t0 ++ [(⟨t0.length + 1, ⟨v, ti, 0, 0⟩⟩ : Rec (Node T))]) v (t0.length + 1) id fuel =
          some ((t0 ++ [(⟨t0.length + 1, ⟨v, ti, 0, 0⟩⟩ : Rec (Node T))]).set (p - 1) r') ∧
        0 < p ∧ p ∈ idsT (sub t0 id) ∧ t0[p - 1]? = some r ∧ r'.id = r.id ∧
        r'.payload.value = r.payload.value ∧ r'.payload.table_id = r.payload.table_id ∧
        ValidChild (t0.length + 1) p r'.payload.left ∧
        ValidChild (t0.length + 1) p r'.payload.right ∧
        sub ((t0 ++ [(⟨t0.length + 1, ⟨v, ti, 0, 0⟩⟩ : Rec (Node T))]).set (p - 1) r') id =
          insertT v ti (t0.length + 1) (sub t0 id) := by
  set nr : Rec (Node T) := ⟨t0.length + 1, ⟨v, ti, 0, 0⟩⟩ with hnr
  set t1 : ITable T := t0 ++ [nr] with ht1
  have h1 : PtrWF t1 := PtrWF_append_fresh h0 rfl rfl rfl
  have hlen1 : t1.length = t0.length + 1 := by simp [ht1]
  intro fuel
  induction fuel with
  | zero =>
    intro id hid hle _ hf
    exfalso
    omega
  | succ fuel ih =>
    intro id hid hle hnd hf
    have hsl0 : t0[id - 1]? = some t0[id - 1] := List.getElem?_eq_getElem (by omega)
    set rec : Rec (Node T) := t0[id - 1] with hrec
    have hsl1 : t1[id - 1]? = some rec := by
      rw [ht1, List.getElem?_append, if_pos (by omega)]
      exact hsl0
    have hget1 : getU t1 id = some rec := getU_of hid hsl1
    obtain ⟨hrid, hvl, hvr⟩ := h0 (id - 1) rec hsl0
    have hid1 : id - 1 + 1 = id := by omega
    rw [hid1] at hrid hvl hvr
    have hsub0 : sub t0 id = .node (sub t0 rec.payload.left) id rec.payload.value
        rec.payload.table_id (sub t0 rec.payload.right) := sub_node h0 hid hsl0
    by_cases hvw : v < rec.payload.value
    · by_cases hc0 : rec.payload.left = 0
      · -- plant the new node as the left child of `rec`
        set r' : Rec (Node T) :=
          { rec with payload := { rec.payload with left := t0.length + 1 } } with hr'
        have hr'id : r'.id = id := hrid
        have step : bindGo t1 v (t0.length + 1) id (fuel + 1) =
            some (t1.set (id - 1) r') := by
          conv_lhs => rw [bindGo]
          rw [if_neg (by omega), hget1]
          dsimp only
          rw [if_pos hvw, if_pos hc0]
          rw [show TableTrait.update r' t1 = .ok (t1.set (r'.id - 1) r') from
            update_ok (by rw [hr'id]; omega) (by rw [hr'id, hlen1]; omega)]
          rw [hr'id]
        refine ⟨id, rec, r', step, hid, ?_, hsl0, rfl, rfl, rfl, ?_, ?_, ?_⟩
        · rw [hsub0]; simp [idsT]
        · rw [show r'.payload.left = t0.length + 1 from rfl]
          exact Or.inr ⟨by omega, le_refl _⟩
        · exact hvr.mono (by omega)
        · -- decode the updated table
          set u : ITable T := t1.set (id - 1) r' with hu
          have hwfu : PtrWF u := by
            rw [hu]
            refine PtrWF_set_id h1 hid hsl1 rfl ?_ ?_
            · rw [hlen1, show r'.payload.left = t0.length + 1 from rfl]
              exact Or.inr ⟨by omega, le_refl _⟩
            · rw [hlen1]; exact hvr.mono (by omega)
          have hslu : u[id - 1]? = some r' := by
            rw [hu]
            exact List.getElem?_set_eq_of_lt r' (by rw [ht1]; simp; omega)
          have hsubu : sub u id = .node (sub u (t0.length + 1)) id rec.payload.value
              rec.payload.table_id (sub u rec.payload.right) := sub_node hwfu hid hslu
          have hnewu : u[t0.length + 1 - 1]? = some nr := by
            rw [hu, List.getElem?_set_ne (by omega), ht1]
            simp
          have hsubnew : sub u (t0.length + 1) =
              .node .leaf (t0.length + 1) v ti .leaf := by
            rw [sub_node hwfu (by omega) hnewu, show nr.payload.left = 0 from rfl,
              show nr.payload.right = 0 from rfl, sub_zero]
          have hsubr : sub u rec.payload.right = sub t0 rec.payload.right := by
            have hstep1 : sub t1 rec.payload.right = sub t0 rec.payload.right := by
              rcases hvr with e | ⟨-, e⟩
              · rw [e, sub_zero, sub_zero]
              · exact sub_append h0 nr e
            have hnp : id ∉ idsT (sub t1 rec.payload.right) := by
              rw [hstep1]
              intro hmem
              have := mem_idsT_sub_bounds h0 hmem
              rcases hvr with e | ⟨e1, -⟩
              · rw [e, sub_zero] at hmem; simp [idsT] at hmem
              · omega
            rw [hu, show t1.set (id - 1) r' = t1.set (id - 1) r' from rfl]
            rw [sub_set_congr h1 hid r' hnp, hstep1]
          rw [hsubu, hsubnew, hsubr, hsub0]
          rw [show insertT v ti (t0.length + 1)
            (Tr.node (sub t0 rec.payload.left) id rec.payload.value rec.payload.table_id
              (sub t0 rec.payload.right)) =
            Tr.node (insertT v ti (t0.length + 1) (sub t0 rec.payload.left)) id
              rec.payload.value rec.payload.table_id (sub t0 rec.payload.right) by
            conv_lhs => rw [insertT]
            rw [if_pos hvw]]
          rw [hc0, sub_zero]
          rfl
      · -- descend into the left child
        have hcl : 0 < rec.payload.left ∧ rec.payload.left ≤ t0.length ∧
            id < rec.payload.left := by
          rcases hvl with e | ⟨e1, e2⟩
          · exact absurd e hc0
          · exact ⟨by omega, e2, e1⟩
        have hndl : (idsT (sub t0 rec.payload.left)).Nodup := by
          rw [hsub0] at hnd
          have hsubl : List.Sublist (idsT (sub t0 rec.payload.left))
              (idsT (sub t0 rec.payload.left) ++ id :: idsT (sub t0 rec.payload.right)) :=
            List.sublist_append_left _ _
          exact hsubl.nodup hnd
        obtain ⟨p, r, r', heq, hp0, hpmem, hpsl, hpid, hpval, hpti, hpcl, hpcr, hsubind⟩ :=
          ih rec.payload.left hcl.1 hcl.2.1 hndl (by omega)
        have step : bindGo t1 v (t0.length + 1) id (fuel + 1) =
            bindGo t1 v (t0.length + 1) rec.payload.left fuel := by
          conv_lhs => rw [bindGo]
          rw [if_neg (by omega), hget1]
          dsimp only
          rw [if_pos hvw, if_neg hc0]
        refine ⟨p, r, r', by rw [step, heq], hp0, ?_, hpsl, hpid, hpval, hpti, hpcl, hpcr, ?_⟩
        · rw [hsub0]
          simp only [idsT, List.mem_append, List.mem_cons]
          exact Or.inl hpmem
        · have hpbounds := mem_idsT_sub_bounds h0 hpmem
          set u : ITable T := t1.set (p - 1) r' with hu
          have hpsl1 : t1[p - 1]? = some r := by
            rw [ht1, List.getElem?_append, if_pos (by omega)]
            exact hpsl
          have hwfu : PtrWF u := by
            rw [hu]
            refine PtrWF_set_id h1 hp0 hpsl1 hpid ?_ ?_
            · rw [hlen1]; exact hpcl
            · rw [hlen1]; exact hpcr
          have hslu : u[id - 1]? = some rec := by
            rw [hu, List.getElem?_set_ne (by omega)]
            exact hsl1
          have hsubu : sub u id = .node (sub u rec.payload.left) id rec.payload.value
              rec.payload.table_id (sub u rec.payload.right) := sub_node hwfu hid hslu
          have hsubr : sub u rec.payload.right = sub t0 rec.payload.right := by
            have hstep1 : sub t1 rec.payload.right = sub t0 rec.payload.right := by
              rcases hvr with e | ⟨-, e⟩
              · rw [e, sub_zero, sub_zero]
              · exact sub_append h0 nr e
            have hnp : p ∉ idsT (sub t1 rec.payload.right) := by
              rw [hstep1]
              intro hmem
              rw [hsub0] at hnd
              simp only [idsT] at hnd
              rw [List.nodup_append] at hnd
              exact hnd.2.2 hpmem (List.mem_cons_of_mem id hmem)
            rw [hu, sub_set_congr h1 hp0 r' hnp, hstep1]
          rw [hsubu, hsubr, hsubind, hsub0]
          rw [show insertT v ti (t0.length + 1)
            (Tr.node (sub t0 rec.payload.left) id rec.payload.value rec.payload.table_id
              (sub t0 rec.payload.right)) =
            Tr.node (insertT v ti (t0.length + 1) (sub t0 rec.payload.left)) id
              rec.payload.value rec.payload.table_id (sub t0 rec.payload.right) by
            conv_lhs => rw [insertT]
            rw [if_pos hvw]]
    · by_cases hc0 : rec.payload.right = 0
      · -- plant the new node as the right child of `rec`
        set r' : Rec (Node T) :=
          { rec with payload := { rec.payload with right := t0.length + 1 } } with hr'
        have hr'id : r'.id = id := hrid
        have step : bindGo t1 v (t0.length + 1) id (fuel + 1) =
            some (t1.set (id - 1) r') := by
          conv_lhs => rw [bindGo]
          rw [if_neg (by omega), hget1]
          dsimp only
          rw [if_neg hvw, if_pos hc0]
          rw [show TableTrait.update r' t1 = .ok (t1.set (r'.id - 1) r') from
            update_ok (by rw [hr'id]; omega) (by rw [hr'id, hlen1]; omega)]
          rw [hr'id]
        refine ⟨id, rec, r', step, hid, ?_, hsl0, rfl, rfl, rfl, ?_, ?_, ?_⟩
        · rw [hsub0]; simp [idsT]
        · exact hvl.mono (by omega)
        · rw [show r'.payload.right = t0.length + 1 from rfl]
          exact Or.inr ⟨by omega, le_refl _⟩
        · set u : ITable T := t1.set (id - 1) r' with hu
          have hwfu : PtrWF u := by
            rw [hu]
            refine PtrWF_set_id h1 hid hsl1 rfl ?_ ?_
            · rw [hlen1]; exact hvl.mono (by omega)
            · rw [hlen1, show r'.payload.right = t0.length + 1 from rfl]
              exact Or.inr ⟨by omega, le_refl _⟩
          have hslu : u[id - 1]? = some r' := by
            rw [hu]
            exact List.getElem?_set_eq_of_lt r' (by rw [ht1]; simp; omega)
          have hsubu : sub u id = .node (sub u rec.payload.left) id rec.payload.value
              rec.payload.table_id (sub u (t0.length + 1)) := sub_node hwfu hid hslu
          have hnewu : u[t0.length + 1 - 1]? = some nr := by
            rw [hu, List.getElem?_set_ne (by omega), ht1]
            simp
          have hsubnew : sub u (t0.length + 1) =
              .node .leaf (t0.length + 1) v ti .leaf := by
            rw [sub_node hwfu (by omega) hnewu, show nr.payload.left = 0 from rfl,
              show nr.payload.right = 0 from rfl, sub_zero]
          have hsubl : sub u rec.payload.left = sub t0 rec.payload.left := by
            have hstep1 : sub t1 rec.payload.left = sub t0 rec.payload.left := by
              rcases hvl with e | ⟨-, e⟩
              · rw [e, sub_zero, sub_zero]
              · exact sub_append h0 nr e
            have hnp : id ∉ idsT (sub t1 rec.payload.left) := by
              rw [hstep1]
              intro hmem
              have := mem_idsT_sub_bounds h0 hmem
              rcases hvl with e | ⟨e1, -⟩
              · rw [e, sub_zero] at hmem; simp [idsT] at hmem
              · omega
            rw [hu, sub_set_congr h1 hid r' hnp, hstep1]
          rw [hsubu, hsubnew, hsubl, hsub0]
          rw [show insertT v ti (t0.length + 1)
            (Tr.node (sub t0 rec.payload.left) id rec.payload.value rec.payload.table_id
              (sub t0 rec.payload.right)) =
            Tr.node (sub t0 rec.payload.left) id rec.payload.value rec.payload.table_id
              (insertT v ti (t0.length + 1) (sub t0 rec.payload.right)) by
            conv_lhs => rw [insertT]
            rw [if_neg hvw]]
          rw [hc0, sub_zero]
          rfl
      · -- descend into the right child
        have hcr : 0 < rec.payload.right ∧ rec.payload.right ≤ t0.length ∧
            id < rec.payload.right := by
          rcases hvr with e | ⟨e1, e2⟩
          · exact absurd e hc0
          · exact ⟨by omega, e2, e1⟩
        have hndr : (idsT (sub t0 rec.payload.right)).Nodup := by
          rw [hsub0] at hnd
          simp only [idsT] at hnd
          rw [List.nodup_append] at hnd
          exact (List.nodup_cons.mp hnd.2.1).2
        obtain ⟨p, r, r', heq, hp0, hpmem, hpsl, hpid, hpval, hpti, hpcl, hpcr, hsubind⟩ :=
          ih rec.payload.right hcr.1 hcr.2.1 hndr (by omega)
        have step : bindGo t1 v (t0.length + 1) id (fuel + 1) =
            bindGo t1 v (t0.length + 1) rec.payload.right fuel := by
          conv_lhs => rw [bindGo]
          rw [if_neg (by omega), hget1]
          dsimp only
          rw [if_neg hvw, if_neg hc0]
        refine ⟨p, r, r', by rw [step, heq], hp0, ?_, hpsl, hpid, hpval, hpti, hpcl, hpcr, ?_⟩
        · rw [hsub0]
          simp only [idsT, List.mem_append, List.mem_cons]
          exact Or.inr (Or.inr hpmem)
        · have hpbounds := mem_idsT_sub_bounds h0 hpmem
          set u : ITable T := t1.set (p - 1) r' with hu
          have hpsl1 : t1[p - 1]? = some r := by
            rw [ht1, List.getElem?_append, if_pos (by omega)]
            exact hpsl
          have hwfu : PtrWF u := by
            rw [hu]
            refine PtrWF_set_id h1 hp0 hpsl1 hpid ?_ ?_
            · rw [hlen1]; exact hpcl
            · rw [hlen1]; exact hpcr
          have hslu : u[id - 1]? = some rec := by
            rw [hu, List.getElem?_set_ne (by omega)]
            exact hsl1
          have hsubu : sub u id = .node (sub u rec.payload.left) id rec.payload.value
              rec.payload.table_id (sub u rec.payload.right) := sub_node hwfu hid hslu
          have hsubl : sub u rec.payload.left = sub t0 rec.payload.left := by
            have hstep1 : sub t1 rec.payload.left = sub t0 rec.payload.left := by
              rcases hvl with e | ⟨-, e⟩
              · rw [e, sub_zero, sub_zero]
              · exact sub_append h0 nr e
            have hnp : p ∉ idsT (sub t1 rec.payload.left) := by
              rw [hstep1]
              intro hmem
              rw [hsub0] at hnd
              simp only [idsT] at hnd
              rw [List.nodup_append] at hnd
              exact hnd.2.2 hmem (List.mem_cons_of_mem id hpmem)
            rw [hu, sub_set_congr h1 hp0 r' hnp, hstep1]
          rw [hsubu, hsubl, hsubind, hsub0]
          rw [show insertT v ti (t0.length + 1)
            (Tr.node (sub t0 rec.payload.left) id rec.payload.value rec.payload.table_id
              (sub t0 rec.payload.right)) =
            Tr.node (sub t0 rec.payload.left) id rec.payload.value rec.payload.table_id
              (insertT v ti (t0.length + 1) (sub t0 rec.payload.right)) by
            conv_lhs => rw [insertT]
            rw [if_neg hvw]]

theorem tree_nil : tree ([] : ITable T) = .leaf := rfl

theorem add_ok {t : ITable T} (hw : PtrWF t) (hbst : BST (tree t))
    (hperm : (idsT (tree t)).Perm (List.range' 1 t.length)) (v : T) (ti : Nat) :
    ∃ t', add t v ti = some (.ok t') ∧ t'.length = t.length + 1 ∧
      tree t' = insertT v ti (t.length + 1) (tree t) ∧ PtrWF t' ∧ BST (tree t') ∧
      (idsT (tree t')).Perm (List.range' 1 t'.length) := by
  have hins := insert_fresh t (⟨0, ⟨v, ti, 0, 0⟩⟩ : Rec (Node T)) rfl
  have hsetid : (⟨0, ⟨v, ti, 0, 0⟩⟩ : Rec (Node T)).setId (t.length + 1) =
      ⟨t.length + 1, ⟨v, ti, 0, 0⟩⟩ := rfl
  rw [hsetid] at hins
  set nr : Rec (Node T) := ⟨t.length + 1, ⟨v, ti, 0, 0⟩⟩ with hnr
  set t1 : ITable T := t ++ [nr] with ht1
  have h1 : PtrWF t1 := PtrWF_append_fresh hw rfl rfl rfl
  have hlen1 : t1.length = t.length + 1 := by simp [ht1]
  have hfid : TableTrait.get_first_id t1 = .ok 1 := by
    unfold TableTrait.get_first_id
    rw [if_neg (by omega)]
  rcases Nat.eq_zero_or_pos t.length with hlen0 | hlen0
  · -- empty table: the fresh node is the root, no linking happens
    have htnil : t = [] := List.length_eq_zero.mp hlen0
    subst htnil
    refine ⟨t1, ?_, by simpa using hlen1, ?_, h1, ?_, ?_⟩
    · unfold add
      dsimp only
      rw [hins]
      dsimp only
      unfold bind
      rw [hfid]
      dsimp only
      rw [if_neg (by simp)]
    · have : tree t1 = .node .leaf (0 + 1) v ti .leaf := by
        have := sub_append_new PtrWF_nil v ti
        simpa [ht1, hnr] using this
      rw [this, tree_nil]
      rfl
    · have : tree t1 = .node .leaf (0 + 1) v ti .leaf := by
        have := sub_append_new PtrWF_nil v ti
        simpa [ht1, hnr] using this
      rw [this]
      exact ⟨by intro w hw2; simp [valuesT, inoAll] at hw2,
        by intro w hw2; simp [valuesT, inoAll] at hw2, trivial, trivial⟩
    · have : tree t1 = .node .leaf (0 + 1) v ti .leaf := by
        have := sub_append_new PtrWF_nil v ti
        simpa [ht1, hnr] using this
      rw [this, hlen1]
      simp [idsT, List.range']
  · -- non-empty table: link the new node below the root
    have hnd : (idsT (sub t 1)).Nodup :=
      (hperm.nodup_iff).mpr (List.nodup_range' ..)
    obtain ⟨p, r, r', heq, hp0, hpmem, hpsl, hpid, hpval, hpti, hpcl, hpcr, hsubind⟩ :=
      bindGo_spec hw v ti (t1.length + 1) 1 (by omega) (by omega) hnd (by omega)
    have hpbounds := mem_idsT_sub_bounds hw hpmem
    set t2 : ITable T := t1.set (p - 1) r' with ht2
    have hlen2 : t2.length = t.length + 1 := by
      rw [ht2, List.length_set, hlen1]
    have hpsl1 : t1[p - 1]? = some r := by
      rw [ht1, List.getElem?_append, if_pos (by omega)]
      exact hpsl
    have hwf2 : PtrWF t2 := by
      rw [ht2]
      refine PtrWF_set_id h1 hp0 hpsl1 hpid ?_ ?_
      · rw [hlen1]; exact hpcl
      · rw [hlen1]; exact hpcr
    have htree2 : tree t2 = insertT v ti (t.length + 1) (tree t) := hsubind
    refine ⟨t2, ?_, hlen2, htree2, hwf2, ?_, ?_⟩
    · unfold add
      dsimp only
      rw [hins]
      dsimp only
      unfold bind
      rw [hfid]
      dsimp only
      rw [if_pos (by omega), hlen1]
      rw [← hnr, ← ht1, hlen1] at heq
      rw [heq]
    · rw [htree2]
      exact BST_insertT v ti (t.length + 1) (tree t) hbst
    · rw [htree2, hlen2]
      have h2 := idsT_insertT v ti (t.length + 1) (tree t)
      have h3 : ((t.length + 1) :: idsT (tree t)).Perm
          ((t.length + 1) :: List.range' 1 t.length) := hperm.cons _
      have h4 : (List.range' 1 t.length ++ [t.length + 1]).Perm
          ((t.length + 1) :: List.range' 1 t.length) :=
        List.perm_append_singleton _ _
      have h5 : List.range' 1 (t.length + 1) = List.range' 1 t.length ++ [t.length + 1] := by
        have := List.range'_1_concat 1 t.length
        simpa [Nat.add_comm] using this
      rw [h5]
      exact (h2.trans h3).trans h4.symm

/-- Stored identities agree with slot positions (spec §3: identity equals
slot index + 1). -/
def IdOk (t : ITable T) : Prop :=
  ∀ i (r : Rec (Node T)), t[i]? = some r → r.id = i + 1

theorem PtrWF.idOk {t : ITable T} (h : PtrWF t) : IdOk t :=
  fun i r hr => (h i r hr).1

theorem excludeFind_found {t : ITable T} {v : T} {ti : Nat} :
    ∀ fuel id rec, excludeFind t v ti id fuel = some (some rec) →
      (∃ j : Nat, 0 < j ∧ j ≤ t.length ∧ t[j - 1]? = some rec) ∧
        rec.payload.value = v ∧ rec.payload.table_id = ti := by
  intro fuel
  induction fuel with
  | zero => intro id rec h; exact absurd h (by rw [excludeFind]; simp)
  | succ fuel ih =>
    intro id rec h
    rw [excludeFind] at h
    by_cases h0 : id = 0
    · rw [if_pos h0] at h
      exact absurd h (by simp)
    · rw [if_neg h0] at h
      cases hget : getU t id with
      | none => rw [hget] at h; exact absurd h (by simp)
      | some r0 =>
        rw [hget] at h
        dsimp only at h
        by_cases hlt : v < r0.payload.value
        · rw [if_pos hlt] at h
          exact ih _ rec h
        · rw [if_neg hlt] at h
          by_cases heq : v = r0.payload.value
          · rw [if_pos heq] at h
            by_cases hti : r0.payload.table_id = ti
            · rw [if_pos hti] at h
              cases h
              obtain ⟨hj0, hjle, hjsl⟩ := getU_some hget
              exact ⟨⟨id, hj0, hjle, hjsl⟩, heq.symm, hti⟩
            · rw [if_neg hti] at h
              exact ih _ rec h
          · rw [if_neg heq] at h
            exact ih _ rec h

theorem exclude_ok {t t' : ITable T} (hids : IdOk t) {v : T} {ti : Nat}
    (h : exclude t v ti = some (.ok t')) :
    ∃ p rec, 0 < p ∧ p ≤ t.length ∧ t[p - 1]? = some rec ∧ rec.id = p ∧
      rec.payload.value = v ∧ rec.payload.table_id = ti ∧
      t' = t.set (p - 1) { rec with payload := { rec.payload with table_id := 0 } } := by
  unfold exclude at h
  cases hfid : TableTrait.get_first_id t with
  | error e => rw [hfid] at h; exact absurd h (by simp)
  | ok id0 =>
    rw [hfid] at h
    dsimp only at h
    cases hef : excludeFind t v ti id0 (t.length + 1) with
    | none => rw [hef] at h; exact absurd h (by simp)
    | some o =>
      rw [hef] at h
      cases o with
      | none => dsimp only at h; exact absurd h (by simp)
      | some rec =>
        dsimp only at h
        obtain ⟨⟨j, hj0, hjle, hjsl⟩, hval, hti⟩ := excludeFind_found _ _ _ hef
        have hrid : rec.id = j := by
          have := hids (j - 1) rec hjsl
          omega
        have hupd := @update_ok T _ t
          { rec with payload := { rec.payload with table_id := 0 } }
          (by rw [show ({ rec with payload := { rec.payload with table_id := 0 } } :
            Rec (Node T)).id = rec.id from rfl, hrid]; omega)
          (by rw [show ({ rec with payload := { rec.payload with table_id := 0 } } :
            Rec (Node T)).id = rec.id from rfl, hrid]; omega)
        rw [hupd] at h
        dsimp only at h
        cases h
        refine ⟨j, rec, hj0, hjle, hjsl, hrid, hval, hti, ?_⟩
        rw [show ({ rec with payload := { rec.payload with table_id := 0 } } :
          Rec (Node T)).id = rec.id from rfl, hrid]

theorem exclude_inv {t t' : ITable T} (hw : PtrWF t) (hbst : BST (tree t))
    (hperm : (idsT (tree t)).Perm (List.range' 1 t.length)) {v : T} {ti : Nat}
    (h : exclude t v ti = some (.ok t')) :
    PtrWF t' ∧ BST (tree t') ∧ (idsT (tree t')).Perm (List.range' 1 t'.length) ∧
      t'.length = t.length ∧ ∃ p, tree t' = clearTid p (tree t) := by
  obtain ⟨p, rec, hp0, hple, hsl, hrid, hval, hti, ht'⟩ := exclude_ok hw.idOk h
  have hlen' : t'.length = t.length := by rw [ht', List.length_set]
  have htree' : tree t' = clearTid p (tree t) := by
    rw [ht']
    show toTree (t.set (p - 1) { rec with payload := { rec.payload with table_id := 0 } }) 1
      ((t.set (p - 1) { rec with payload := { rec.payload with table_id := 0 } }).length + 1) = _
    rw [List.length_set]
    exact @toTree_set_clear T _ t hw p rec
      { rec with payload := { rec.payload with table_id := 0 } }
      hp0 hsl rfl rfl rfl rfl rfl _ 1
  have hwf' : PtrWF t' := by
    rw [ht']
    obtain ⟨h1, h2, h3⟩ := hw (p - 1) rec hsl
    exact PtrWF_set_id hw hp0 hsl rfl (by rw [show p - 1 + 1 = p by omega] at h2; exact h2)
      (by rw [show p - 1 + 1 = p by omega] at h3; exact h3)
  refine ⟨hwf', ?_, ?_, hlen', p, htree'⟩
  · rw [htree']
    exact BST_clearTid p (tree t) hbst
  · rw [htree', idsT_clearTid, hlen']
    exact hperm

theorem BuiltA.toBuilt {t : ITable T} (h : BuiltA t) : Built t := by
  induction h with
  | nil => exact Built.nil
  | add t t' v ti hb hadd ih => exact Built.add t t' v ti ih hadd

theorem Built_inv {t : ITable T} (h : Built t) : Inv t := by
  induction h with
  | nil =>
    refine ⟨PtrWF_nil, ?_, ?_⟩
    · rw [tree_nil]; trivial
    · rw [tree_nil]; simp [idsT]
  | add t t' v ti hb hadd ih =>
    obtain ⟨hw, hbst, hperm⟩ := ih
    obtain ⟨u, heq, hlen, htree, hwf', hbst', hperm'⟩ := add_ok hw hbst hperm v ti
    rw [hadd] at heq
    have : t' = u := by
      injection heq with h1
      injection h1
    subst this
    exact ⟨hwf', hbst', hperm'⟩
  | exclude t t' v ti hb hexc ih =>
    obtain ⟨hw, hbst, hperm⟩ := ih
    obtain ⟨hwf', hbst', hperm', -, -⟩ := exclude_inv hw hbst hperm hexc
    exact ⟨hwf', hbst', hperm'⟩

theorem find?_append_of_none {α : Type} (p : α → Bool) :
    ∀ A B : List α, (∀ x ∈ A, p x = false) → List.find? p (A ++ B) = List.find? p B := by
  intro A B hA
  induction A with
  | nil => rfl
  | cons a A ih =>
    rw [List.cons_append, List.find?_cons_of_neg _ (by simp [hA a (List.mem_cons_self a A)])]
    exact ih fun x hx => hA x (List.mem_cons_of_mem a hx)

theorem iterByValueGo_spec {t : ITable T} (hw : PtrWF t) (v : T) :
    ∀ fuel id, FuelOK t id fuel →
      ∃ l, iterByValueGo t v id fuel = some l ∧
        l.map (fun r => (r.id, r.payload.table_id)) = pathRecsT v (sub t id) := by
  intro fuel
  induction fuel with
  | zero =>
    intro id hfuel
    exfalso
    rcases hfuel with ⟨-, h1⟩ | ⟨h1, h2, h3⟩ <;> omega
  | succ fuel ih =>
    intro id hfuel
    rcases hfuel with ⟨rfl, -⟩ | ⟨hid, hle, hf⟩
    · exact ⟨[], by rw [iterByValueGo]; simp, by rw [sub_zero]; rfl⟩
    · obtain ⟨rec, hget, hsl⟩ := getU_lt hid hle
      obtain ⟨hrid, hvl, hvr⟩ := hw (id - 1) rec hsl
      have hid1 : id - 1 + 1 = id := by omega
      rw [hid1] at hrid hvl hvr
      have hsub := sub_node hw hid hsl
      rcases lt_trichotomy v rec.payload.value with hvw | hvw | hvw
      · obtain ⟨l, heq, hmap⟩ := ih rec.payload.left (fuelOK_child hvl hid hle hf)
        refine ⟨l, ?_, ?_⟩
        · conv_lhs => rw [iterByValueGo]
          rw [if_neg (by omega), hget]
          dsimp only
          rw [if_pos hvw]
          exact heq
        · rw [hmap, hsub]
          conv_rhs => rw [pathRecsT]
          rw [if_pos hvw]
      · obtain ⟨l, heq, hmap⟩ := ih rec.payload.right (fuelOK_child hvr hid hle hf)
        refine ⟨rec :: l, ?_, ?_⟩
        · conv_lhs => rw [iterByValueGo]
          rw [if_neg (by omega), hget]
          dsimp only
          rw [if_neg (by rw [hvw]; exact lt_irrefl _), if_pos hvw, heq]
          rfl
        · rw [List.map_cons, hmap, hsub]
          conv_rhs => rw [pathRecsT]
          rw [if_neg (by rw [hvw]; exact lt_irrefl _), if_pos hvw, hrid, hvw]
      · obtain ⟨l, heq, hmap⟩ := ih rec.payload.right (fuelOK_child hvr hid hle hf)
        refine ⟨l, ?_, ?_⟩
        · conv_lhs => rw [iterByValueGo]
          rw [if_neg (by omega), hget]
          dsimp only
          rw [if_neg (lt_asymm hvw), if_neg (by intro hc; rw [hc] at hvw; exact lt_irrefl _ hvw)]
          exact heq
        · rw [hmap, hsub]
          conv_rhs => rw [pathRecsT]
          rw [if_neg (lt_asymm hvw),
            if_neg (by intro hc; rw [hc] at hvw; exact lt_irrefl _ hvw)]

theorem search_many_spec {t : ITable T} (hw : PtrWF t) (hne : t ≠ []) (v : T) :
    search_many t v =
      some (((pathRecsT v (tree t)).filter fun q => decide (0 < q.2)).map Prod.snd) := by
  have hlen : 0 < t.length := List.length_pos.mpr hne
  obtain ⟨l, heq, hmap⟩ := iterByValueGo_spec hw v (t.length + 1) 1 (fuelOK_top hne)
  unfold search_many iterByValue
  rw [show TableTrait.get_first_id t = .ok 1 by
    unfold TableTrait.get_first_id
    rw [if_neg (by omega)]]
  dsimp only
  rw [heq]
  dsimp only [Option.map_some']
  congr 1
  unfold tree
  rw [← hmap, List.filter_map]
  rw [List.map_map]
  rfl

theorem excludeFind_spec {t : ITable T} (hw : PtrWF t) (v : T) (ti : Nat) :
    ∀ fuel id, FuelOK t id fuel →
      ((pathRecsT v (sub t id)).find? (fun q => decide (q.2 = ti)) = none →
        excludeFind t v ti id fuel = some none) ∧
      (∀ q, (pathRecsT v (sub t id)).find? (fun q => decide (q.2 = ti)) = some q →
        ∃ rec, excludeFind t v ti id fuel = some (some rec) ∧ rec.id = q.1 ∧
          rec.payload.value = v ∧ rec.payload.table_id = q.2 ∧ t[q.1 - 1]? = some rec) := by
  intro fuel
  induction fuel with
  | zero =>
    intro id hfuel
    exfalso
    rcases hfuel with ⟨-, h1⟩ | ⟨h1, h2, h3⟩ <;> omega
  | succ fuel ih =>
    intro id hfuel
    rcases hfuel with ⟨rfl, -⟩ | ⟨hid, hle, hf⟩
    · constructor
      · intro _
        rw [excludeFind]
        simp
      · intro q hq
        rw [sub_zero] at hq
        exact absurd hq (by rw [show pathRecsT v (Tr.leaf : Tr T) = [] from rfl]; simp)
    · obtain ⟨rec, hget, hsl⟩ := getU_lt hid hle
      obtain ⟨hrid, hvl, hvr⟩ := hw (id - 1) rec hsl
      have hid1 : id - 1 + 1 = id := by omega
      rw [hid1] at hrid hvl hvr
      have hsub := sub_node hw hid hsl
      have hstep0 : excludeFind t v ti id (fuel + 1) =
          (if v < rec.payload.value then excludeFind t v ti rec.payload.left fuel
           else if v = rec.payload.value then
             (if rec.payload.table_id = ti then some (some rec)
              else excludeFind t v ti rec.payload.right fuel)
           else excludeFind t v ti rec.payload.right fuel) := by
        conv_lhs => rw [excludeFind]
        rw [if_neg (by omega), hget]
      rcases lt_trichotomy v rec.payload.value with hvw | hvw | hvw
      · have hpath : pathRecsT v (sub t id) = pathRecsT v (sub t rec.payload.left) := by
          rw [hsub]
          conv_lhs => rw [pathRecsT]
          rw [if_pos hvw]
        rw [hstep0, if_pos hvw, hpath]
        exact ih rec.payload.left (fuelOK_child hvl hid hle hf)
      · have hpath : pathRecsT v (sub t id) =
            (id, rec.payload.table_id) :: pathRecsT v (sub t rec.payload.right) := by
          rw [hsub]
          conv_lhs => rw [pathRecsT]
          rw [if_neg (by rw [hvw]; exact lt_irrefl _), if_pos hvw]
        rw [hstep0, if_neg (by rw [hvw]; exact lt_irrefl _), if_pos hvw, hpath]
        by_cases hti : rec.payload.table_id = ti
        · constructor
          · intro hnone
            rw [List.find?_cons_of_pos _ (by simp [hti])] at hnone
            exact absurd hnone (by simp)
          · intro q hq
            rw [List.find?_cons_of_pos _ (by simp [hti])] at hq
            cases hq
            exact ⟨rec, by rw [if_pos hti], hrid, hvw.symm, rfl, hsl⟩
        · rw [if_neg hti, List.find?_cons_of_neg _ (by simp [hti])]
          exact ih rec.payload.right (fuelOK_child hvr hid hle hf)
      · have hpath : pathRecsT v (sub t id) = pathRecsT v (sub t rec.payload.right) := by
          rw [hsub]
          conv_lhs => rw [pathRecsT]
          rw [if_neg (lt_asymm hvw),
            if_neg (by intro hc; rw [hc] at hvw; exact lt_irrefl _ hvw)]
        rw [hstep0, if_neg (lt_asymm hvw),
          if_neg (by intro hc; rw [hc] at hvw; exact lt_irrefl _ hvw), hpath]
        exact ih rec.payload.right (fuelOK_child hvr hid hle hf)

theorem exclude_found_spec {t : ITable T} (hw : PtrWF t) (hne : t ≠ []) {v : T} {ti : Nat}
    {q : Nat × Nat}
    (hfind : (pathRecsT v (tree t)).find? (fun q => decide (q.2 = ti)) = some q) :
    ∃ rec, t[q.1 - 1]? = some rec ∧ rec.id = q.1 ∧ rec.payload.value = v ∧
      rec.payload.table_id = q.2 ∧ q.2 = ti ∧
      exclude t v ti = some (.ok (t.set (q.1 - 1)
        { rec with payload := { rec.payload with table_id := 0 } })) := by
  have hlen : 0 < t.length := List.length_pos.mpr hne
  obtain ⟨rec, heq, hrid, hval, hti, hsl⟩ :=
    (excludeFind_spec hw v ti (t.length + 1) 1 (fuelOK_top hne)).2 q hfind
  have hq2 : q.2 = ti := by
    have := List.find?_some hfind
    simpa using this
  have hqpos : 0 < q.1 := by
    have := (hw (q.1 - 1) rec hsl).1
    omega
  have hqle : q.1 ≤ t.length := by
    by_contra hc
    rw [List.getElem?_eq_none (by omega)] at hsl
    exact Option.noConfusion hsl
  refine ⟨rec, hsl, hrid, hval, hti, hq2, ?_⟩
  unfold exclude
  rw [show TableTrait.get_first_id t = .ok 1 by
    unfold TableTrait.get_first_id
    rw [if_neg (by omega)]]
  dsimp only
  rw [heq]
  dsimp only
  rw [show TableTrait.update { rec with payload := { rec.payload with table_id := 0 } } t =
    .ok (t.set (({ rec with payload := { rec.payload with table_id := 0 } } :
      Rec (Node T)).id - 1) { rec with payload := { rec.payload with table_id := 0 } }) from
    update_ok (by rw [show ({ rec with payload := { rec.payload with table_id := 0 } } :
        Rec (Node T)).id = rec.id from rfl, hrid]; omega)
      (by rw [show ({ rec with payload := { rec.payload with table_id := 0 } } :
        Rec (Node T)).id = rec.id from rfl, hrid]; omega)]
  rw [show ({ rec with payload := { rec.payload with table_id := 0 } } :
    Rec (Node T)).id = rec.id from rfl, hrid]

theorem pathRecsT_snd_eq_filter (v : T) :
    ∀ tr : Tr T, BST tr →
      (pathRecsT v tr).map Prod.snd =
        ((inoAll tr).filter fun p => decide (p.1 = v)).map Prod.snd := by
  intro tr
  induction tr with
  | leaf => intro _; rfl
  | node l i w ti r ihl ihr =>
    intro hb
    obtain ⟨hl, hr, hbl, hbr⟩ := hb
    rw [show inoAll (Tr.node l i w ti r) = inoAll l ++ (w, ti) :: inoAll r from rfl]
    rcases lt_trichotomy v w with hvw | hvw | hvw
    · rw [show pathRecsT v (Tr.node l i w ti r) = pathRecsT v l by
        conv_lhs => rw [pathRecsT]
        rw [if_pos hvw]]
      rw [List.filter_append]
      rw [show List.filter (fun p => decide (p.1 = v)) ((w, ti) :: inoAll r) = [] by
        rw [List.filter_eq_nil_iff]
        intro x hx
        simp only [decide_eq_true_eq]
        rcases List.mem_cons.mp hx with rfl | hx
        · intro hc
          have hwv : w = v := hc
          rw [hwv] at hvw
          exact lt_irrefl _ hvw
        · intro hc
          have := hr x.1 (mem_inoAll_fst hx)
          rw [hc] at this
          exact absurd hvw (not_lt_of_le this)]
      rw [List.append_nil]
      exact ihl hbl
    · rw [show pathRecsT v (Tr.node l i w ti r) = (i, ti) :: pathRecsT v r by
        conv_lhs => rw [pathRecsT]
        rw [if_neg (by rw [hvw]; exact lt_irrefl _), if_pos hvw]]
      rw [List.filter_append]
      rw [show List.filter (fun p => decide (p.1 = v)) (inoAll l) = [] by
        rw [List.filter_eq_nil_iff]
        intro x hx
        simp only [decide_eq_true_eq]
        intro hc
        have := hl x.1 (mem_inoAll_fst hx)
        rw [hc, hvw] at this
        exact lt_irrefl _ this]
      rw [List.nil_append, List.filter_cons, if_pos (by simp [hvw.symm])]
      rw [List.map_cons, List.map_cons, ihr hbr]
    · rw [show pathRecsT v (Tr.node l i w ti r) = pathRecsT v r by
        conv_lhs => rw [pathRecsT]
        rw [if_neg (lt_asymm hvw),
          if_neg (by intro hc; rw [hc] at hvw; exact lt_irrefl _ hvw)]]
      rw [List.filter_append]
      rw [show List.filter (fun p => decide (p.1 = v)) (inoAll l) = [] by
        rw [List.filter_eq_nil_iff]
        intro x hx
        simp only [decide_eq_true_eq]
        intro hc
        have := hl x.1 (mem_inoAll_fst hx)
        rw [hc] at this
        exact absurd this (not_lt_of_le (le_of_lt hvw))]
      rw [List.nil_append, List.filter_cons,
        if_neg (by simp; intro hc; rw [hc] at hvw; exact lt_irrefl _ hvw)]
      exact ihr hbr

theorem pathRecsT_fst_sublist (v : T) :
    ∀ tr : Tr T, List.Sublist ((pathRecsT v tr).map Prod.fst) (idsT tr) := by
  intro tr
  induction tr with
  | leaf => exact List.Sublist.refl _
  | node l i w ti r ihl ihr =>
    rw [show idsT (Tr.node l i w ti r) = idsT l ++ i :: idsT r from rfl]
    rcases lt_trichotomy v w with hvw | hvw | hvw
    · rw [show pathRecsT v (Tr.node l i w ti r) = pathRecsT v l by
        conv_lhs => rw [pathRecsT]
        rw [if_pos hvw]]
      exact ihl.trans (List.sublist_append_left _ _)
    · rw [show pathRecsT v (Tr.node l i w ti r) = (i, ti) :: pathRecsT v r by
        conv_lhs => rw [pathRecsT]
        rw [if_neg (by rw [hvw]; exact lt_irrefl _), if_pos hvw]]
      rw [List.map_cons]
      exact (ihr.cons₂ i).trans (List.sublist_append_right _ _)
    · rw [show pathRecsT v (Tr.node l i w ti r) = pathRecsT v r by
        conv_lhs => rw [pathRecsT]
        rw [if_neg (lt_asymm hvw),
          if_neg (by intro hc; rw [hc] at hvw; exact lt_irrefl _ hvw)]]
      exact ihr.trans ((List.sublist_cons_self i (idsT r)).trans
        (List.sublist_append_right _ _))

end TableIndex

namespace Table

variable {α : Type} [LinearOrder α]

/-- The loop of `Table::find_sorted`: binary search maintaining `idx` and
`size`; each probe is a fresh positional read (`self.get(...).unwrap()`,
`none` models the panic on a failed read). -/
def findSortedGo (bs : Nat) (f : List Nat) (v : α) (g : List Nat → α)
    (idx size : Nat) : Option Nat :=
  if h : 0 < size then
    match Table.get bs f (idx + size / 2) with
    | .error _ => none
    | .ok block =>
      if v > g block then findSortedGo bs f v g (idx + size / 2 + 1) (size / 2 + size % 2 - 1)
      else findSortedGo bs f v g idx (size / 2)
  else some idx
termination_by size
decreasing_by
  · omega
  · omega

/-- `Table::find_sorted`. -/
def find_sorted (bs : Nat) (f : List Nat) (v : α) (g : List Nat → α) : Option Nat :=
  findSortedGo bs f v g 0 (size bs f)

/-- The block stored at a slot. -/
def blockAt (bs : Nat) (f : List Nat) (i : Nat) : List Nat := (f.drop (i * bs)).take bs

/-- The extracted values of all blocks, in slot order: the column the
binary search assumes to be sorted. -/
def sortedColumn (bs : Nat) (f : List Nat) (g : List Nat → α) : List α :=
  (List.range (size bs f)).map fun i => g (blockAt bs f i)

theorem length_sortedColumn (bs : Nat) (f : List Nat) (g : List Nat → α) :
    (sortedColumn bs f g).length = size bs f := by
  simp [sortedColumn]

theorem get_ok_of_lt {bs : Nat} {f : List Nat} {i : Nat} (hbs : 0 < bs)
    (hi : i < size bs f) : Table.get bs f i = .ok (blockAt bs f i) := by
  unfold Table.get blockAt
  rw [if_pos ?_]
  have h1 : i + 1 ≤ f.length / bs := hi
  have h2 : (i + 1) * bs ≤ f.length / bs * bs := Nat.mul_le_mul_right bs h1
  have h3 : f.length / bs * bs ≤ f.length := Nat.div_mul_le_self _ _
  calc i * bs + bs = (i + 1) * bs := by ring
    _ ≤ f.length / bs * bs := h2
    _ ≤ f.length := h3

theorem sortedColumn_get {bs : Nat} {f : List Nat} {g : List Nat → α} {i : Nat}
    (hi : i < (sortedColumn bs f g).length) :
    (sortedColumn bs f g).get ⟨i, hi⟩ = g (blockAt bs f i) := by
  simp [sortedColumn]

theorem findIdx_eq_of {β : Type} (p : β → Bool) :
    ∀ (l : List β) (k : Nat) (hk : k ≤ l.length),
      (∀ j (hj : j < k), p (l.get ⟨j, by omega⟩) = false) →
      (∀ hk2 : k < l.length, p (l.get ⟨k, hk2⟩) = true) →
      l.findIdx p = k := by
  intro l
  induction l with
  | nil =>
    intro k hk _ _
    simp at hk
    simp [hk]
  | cons x l ih =>
    intro k hk hbefore hat
    cases k with
    | zero =>
      have hx : p x = true := hat (by simp)
      rw [List.findIdx_cons, hx]
      rfl
    | succ k =>
      have hx : p x = false := hbefore 0 (by omega)
      rw [List.findIdx_cons, hx]
      show l.findIdx p + 1 = k + 1
      rw [ih k (by simpa using hk) (fun j hj => hbefore (j + 1) (by omega))
        (fun hk2 => hat (by simpa using hk2))]

theorem sorted_le_of_le {l : List α} (hs : l.Sorted (· ≤ ·)) {i j : Nat}
    (hij : i ≤ j) (hj : j < l.length) :
    l.get ⟨i, by omega⟩ ≤ l.get ⟨j, hj⟩ := by
  rcases Nat.eq_or_lt_of_le hij with rfl | hlt
  · exact le_refl _
  · exact List.Sorted.rel_get_of_lt hs (by simpa using hlt)

theorem findSortedGo_spec {bs : Nat} {f : List Nat} {g : List Nat → α} {v : α}
    (hbs : 0 < bs) (hsorted : (sortedColumn bs f g).Sorted (· ≤ ·)) :
    ∀ size idx, idx + size ≤ Table.size bs f →
      (∀ j (hj : j < (sortedColumn bs f g).length), j < idx →
        ¬ v ≤ (sortedColumn bs f g).get ⟨j, hj⟩) →
      (∀ j (hj : j < (sortedColumn bs f g).length), idx + size ≤ j →
        v ≤ (sortedColumn bs f g).get ⟨j, hj⟩) →
      findSortedGo bs f v g idx size =
        some ((sortedColumn bs f g).findIdx fun w => decide (v ≤ w)) := by
  intro size
  induction size using Nat.strong_induction_on with
  | _ size ih =>
    intro idx hle hleft hright
    have hlen : (sortedColumn bs f g).length = Table.size bs f := length_sortedColumn bs f g
    by_cases hsz : 0 < size
    · have hmid : idx + size / 2 < Table.size bs f := by omega
      have hget : Table.get bs f (idx + size / 2) = .ok (blockAt bs f (idx + size / 2)) :=
        get_ok_of_lt hbs hmid
      have hmidv : g (blockAt bs f (idx + size / 2)) =
          (sortedColumn bs f g).get ⟨idx + size / 2, by omega⟩ :=
        (sortedColumn_get (by omega)).symm
      rw [findSortedGo, dif_pos hsz, hget]
      dsimp only
      by_cases hgt : v > g (blockAt bs f (idx + size / 2))
      · rw [if_pos hgt]
        refine ih (size / 2 + size % 2 - 1) (by omega) (idx + size / 2 + 1) (by omega) ?_ ?_
        · intro j hj hjlt
          intro hcon
          have hj2 : j ≤ idx + size / 2 := by omega
          have := sorted_le_of_le hsorted hj2
            (show idx + size / 2 < (sortedColumn bs f g).length by omega)
          rw [← hmidv] at this
          exact absurd (le_trans hcon this) (not_le_of_lt hgt)
        · intro j hj hjge
          exact hright j hj (by omega)
      · rw [if_neg hgt]
        refine ih (size / 2) (by omega) idx (by omega) hleft ?_
        intro j hj hjge
        have hj2 : idx + size / 2 ≤ j := by omega
        have := sorted_le_of_le hsorted hj2 hj
        rw [← hmidv] at this
        exact le_trans (le_of_not_lt hgt) this
    · have hsz0 : size = 0 := by omega
      subst hsz0
      rw [findSortedGo, dif_neg (by omega)]
      congr 1
      rw [eq_comm]
      refine findIdx_eq_of _ (sortedColumn bs f g) idx (by omega) ?_ ?_
      · intro j hj
        have := hleft j (by omega) hj
        simpa using this
      · intro hk2
        have := hright idx (by omega) (by omega)
        simpa using this

theorem find_sorted_spec {bs : Nat} {f : List Nat} {g : List Nat → α} {v : α}
    (hbs : 0 < bs) (hsorted : (sortedColumn bs f g).Sorted (· ≤ ·)) :
    find_sorted bs f v g =
      some ((sortedColumn bs f g).findIdx fun w => decide (v ≤ w)) := by
  unfold find_sorted
  refine findSortedGo_spec hbs hsorted (size bs f) 0 (by omega) ?_ ?_
  · intro j hj hjlt
    omega
  · intro j hj hjge
    rw [length_sortedColumn] at hj
    omega
end Table

/-- C1: inserting a record whose identity is 0 succeeds, returns identity
equal to 1 plus the record count before insertion, stores that identity in
the record, and an immediately following get with that identity returns the
inserted record with its identity field set. -/
theorem C1_insert_then_get {α : Type} (t : List (Rec α)) (r : Rec α) (h : r.id = 0) :
    TableTrait.insert r t =
      (.ok (t.length + 1), r.setId (t.length + 1), t ++ [r.setId (t.length + 1)]) ∧
    TableTrait.get (t ++ [r.setId (t.length + 1)]) (t.length + 1) =
      .ok (r.setId (t.length + 1)) :=
  ⟨insert_fresh t r h, get_last t _⟩

theorem C1_witness :
    TableTrait.insert (⟨0, (7 : Nat)⟩ : Rec Nat) [⟨1, 5⟩] =
      (.ok 2, ⟨2, 7⟩, [⟨1, 5⟩, ⟨2, 7⟩]) ∧
    TableTrait.get [(⟨1, (5 : Nat)⟩ : Rec Nat), ⟨2, 7⟩] 2 = .ok ⟨2, 7⟩ :=
  C1_insert_then_get [⟨1, 5⟩] ⟨0, 7⟩ rfl

/-- C7: inserting a record that already carries a nonzero identity fails
with InvalidArgument and returns the table unchanged (no block written,
the record itself untouched). -/
theorem C7_insert_nonzero_id {α : Type} (t : List (Rec α)) (r : Rec α) (h : r.id ≠ 0) :
    TableTrait.insert r t = (.error .invalidInput, r, t) := by
  unfold TableTrait.insert
  rw [if_pos h]

theorem C7_witness :
    TableTrait.insert (⟨5, (9 : Nat)⟩ : Rec Nat) [⟨1, 3⟩] =
      (.error .invalidInput, ⟨5, 9⟩, [⟨1, 3⟩]) :=
  C7_insert_nonzero_id [⟨1, 3⟩] ⟨5, 9⟩ (by decide)

/-- C2 counterexample: on a table with block size 48 holding 3 records, the
positional write at slot 3 does not fail — it succeeds and appends a fourth
block, directly contradicting the claim that `write` fails when
`slot >= count()`. -/
theorem C2_counterexample :
    Table.size 48 (List.replicate 144 0) = 3 ∧
    Table.update 48 (List.replicate 144 0) (List.replicate 48 7) 3 =
      .ok (List.replicate 144 0 ++ List.replicate 48 7) ∧
    Table.size 48 (List.replicate 144 0 ++ List.replicate 48 7) = 4 := by
  refine ⟨by decide, ?_, by decide⟩
  unfold Table.update Table.writeAllAt
  rfl

/-- C2 amended: the positional read at a slot at or past the record count
fails (with an IO error, not NotFound), but the positional write performs
no bound check: it succeeds, and the file afterwards extends exactly
through the written block, so the count becomes `slot + 1`. -/
theorem C2_amended_unchecked_write (bs : Nat) (f b : List Nat) (idx : Nat)
    (hbs : 0 < bs) (hb : b.length = bs) (hidx : Table.size bs f ≤ idx) :
    Table.get bs f idx = .error .ioError ∧
    ∃ f', Table.update bs f b idx = .ok f' ∧ f'.length = idx * bs + bs ∧
      Table.size bs f' = idx + 1 := by
  have h1 : f.length < (f.length / bs + 1) * bs :=
    (Nat.div_lt_iff_lt_mul hbs).mp (by omega)
  have h2 : (f.length / bs + 1) * bs ≤ (idx + 1) * bs :=
    Nat.mul_le_mul_right bs (by have := hidx; unfold Table.size at this; omega)
  have hover : f.length < idx * bs + bs := by
    have : (idx + 1) * bs = idx * bs + bs := by ring
    omega
  constructor
  · unfold Table.get
    rw [if_neg (by omega)]
  · refine ⟨Table.writeAllAt f b (idx * bs), rfl, ?_, ?_⟩
    · unfold Table.writeAllAt
      rw [List.length_append, List.length_append, List.length_append,
        List.length_take, List.length_replicate, List.length_drop, hb]
      omega
    · unfold Table.size Table.writeAllAt
      rw [List.length_append, List.length_append, List.length_append,
        List.length_take, List.length_replicate, List.length_drop, hb]
      have hnum : ∀ X : Nat, X = (idx + 1) * bs → X / bs = idx + 1 := by
        intro X hX
        rw [hX]
        exact Nat.mul_div_cancel (idx + 1) hbs
      apply hnum
      have hdistrib : (idx + 1) * bs = idx * bs + bs := by ring
      omega

theorem C2_witness :
    Table.get 48 (List.replicate 144 0) 3 = .error .ioError ∧
    ∃ f', Table.update 48 (List.replicate 144 0) (List.replicate 48 7) 3 = .ok f' ∧
      f'.length = 3 * 48 + 48 ∧ Table.size 48 f' = 3 + 1 :=
  C2_amended_unchecked_write 48 (List.replicate 144 0) (List.replicate 48 7) 3
    (by decide) (by decide) (by decide)

/-- C6: on a table whose extracted column is sorted ascending, the binary
search returns exactly the linear-scan lower bound: the first slot whose
extracted value is at least the target, or the record count if none. -/
theorem C6_find_sorted_lower_bound {α : Type} [LinearOrder α] (bs : Nat) (f : List Nat)
    (g : List Nat → α) (v : α) (hbs : 0 < bs)
    (hsorted : (Table.sortedColumn bs f g).Sorted (· ≤ ·)) :
    Table.find_sorted bs f v g =
      some ((Table.sortedColumn bs f g).findIdx fun w => decide (v ≤ w)) :=
  Table.find_sorted_spec hbs hsorted

theorem C6_witness :
    Table.find_sorted 1 [1, 3, 5] (4 : Nat) (fun b => b.headD 0) =
      some ((Table.sortedColumn 1 [1, 3, 5] (fun b => b.headD 0)).findIdx
        fun w => decide (4 ≤ w)) :=
  C6_find_sorted_lower_bound 1 [1, 3, 5] (fun b => b.headD 0) 4 (by decide) (by decide)

/-- C10: on an empty index table, search, iteration and exclusion all
panic — the NotFound of the first-record lookup is unwrapped, not returned —
so none of them produces a NotFound error or an empty sequence. -/
theorem C10_empty_table_panics {T : Type} [LinearOrder T] (v a b : T) (ti : Nat) :
    TableIndex.search_one ([] : TableIndex.ITable T) v = none ∧
    TableIndex.search_many ([] : TableIndex.ITable T) v = none ∧
    TableIndex.iter ([] : TableIndex.ITable T) = none ∧
    TableIndex.iter_between ([] : TableIndex.ITable T) a b = none ∧
    TableIndex.exclude ([] : TableIndex.ITable T) v ti = none :=
  ⟨rfl, rfl, rfl, rfl, rfl⟩

theorem C10_witness :
    TableIndex.search_one ([] : TableIndex.ITable Nat) 0 = none ∧
    TableIndex.search_many ([] : TableIndex.ITable Nat) 0 = none ∧
    TableIndex.iter ([] : TableIndex.ITable Nat) = none ∧
    TableIndex.iter_between ([] : TableIndex.ITable Nat) 1 2 = none ∧
    TableIndex.exclude ([] : TableIndex.ITable Nat) 0 3 = none :=
  C10_empty_table_panics 0 1 2 3

/-- C4: on every non-empty index table built by add calls, the full
iteration succeeds and yields exactly the target identities of the live
in-order node sequence of the tree, whose keys are non-decreasing. -/
theorem C4_iterate_sorted {T : Type} [LinearOrder T] (t : TableIndex.ITable T)
    (hb : TableIndex.BuiltA t) (hne : t ≠ []) :
    TableIndex.iter t = some ((TableIndex.inoLive (TableIndex.tree t)).map Prod.snd) ∧
    ((TableIndex.inoLive (TableIndex.tree t)).map Prod.fst).Sorted (· ≤ ·) := by
  obtain ⟨hw, hbst, hperm⟩ := TableIndex.Built_inv hb.toBuilt
  constructor
  · exact TableIndex.iter_spec hw hperm hne
  · have hks := TableIndex.BST_keySorted hbst
    have hfil := TableIndex.keySorted_filter (fun p => decide (0 < p.2)) hks
    rw [List.Sorted, List.pairwise_map]
    exact hfil

/-- The tree of the spec's example: add (10,100), (5,200), (15,300), (5,400)
to an empty index. -/
def exampleIndex : TableIndex.ITable Nat :=
  [⟨1, ⟨10, 100, 2, 3⟩⟩, ⟨2, ⟨5, 200, 0, 4⟩⟩, ⟨3, ⟨15, 300, 0, 0⟩⟩, ⟨4, ⟨5, 400, 0, 0⟩⟩]

theorem exampleIndex_builtA : TableIndex.BuiltA exampleIndex := by
  have h1 : TableIndex.BuiltA ([⟨1, ⟨10, 100, 0, 0⟩⟩] : TableIndex.ITable Nat) :=
    TableIndex.BuiltA.add [] _ 10 100 TableIndex.BuiltA.nil rfl
  have h2 : TableIndex.BuiltA
      ([⟨1, ⟨10, 100, 2, 0⟩⟩, ⟨2, ⟨5, 200, 0, 0⟩⟩] : TableIndex.ITable Nat) :=
    TableIndex.BuiltA.add _ _ 5 200 h1 rfl
  have h3 : TableIndex.BuiltA
      ([⟨1, ⟨10, 100, 2, 3⟩⟩, ⟨2, ⟨5, 200, 0, 0⟩⟩,
        ⟨3, ⟨15, 300, 0, 0⟩⟩] : TableIndex.ITable Nat) :=
    TableIndex.BuiltA.add _ _ 15 300 h2 rfl
  exact TableIndex.BuiltA.add _ _ 5 400 h3 rfl

theorem C4_witness :
    TableIndex.iter exampleIndex =
      some ((TableIndex.inoLive (TableIndex.tree exampleIndex)).map Prod.snd) ∧
    ((TableIndex.inoLive (TableIndex.tree exampleIndex)).map Prod.fst).Sorted (· ≤ ·) :=
  C4_iterate_sorted exampleIndex exampleIndex_builtA (by intro h; cases h)

/-- C5: on every non-empty index table built by add calls, the bounded
iteration `iter_between a b` emits exactly the subsequence of the full
iteration whose keys satisfy `a ≤ key < b`, in the same order. -/
theorem C5_iterate_between_filter {T : Type} [LinearOrder T] (t : TableIndex.ITable T)
    (hb : TableIndex.BuiltA t) (hne : t ≠ []) (a b : T) :
    TableIndex.iter t = some ((TableIndex.inoLive (TableIndex.tree t)).map Prod.snd) ∧
    TableIndex.iter_between t a b =
      some (((TableIndex.inoLive (TableIndex.tree t)).filter
        fun p => decide (a ≤ p.1) && decide (p.1 < b)).map Prod.snd) := by
  obtain ⟨hw, hbst, hperm⟩ := TableIndex.Built_inv hb.toBuilt
  refine ⟨TableIndex.iter_spec hw hperm hne, ?_⟩
  have hspec := TableIndex.iter_between_spec hw hperm hbst hne a b
  have hks := TableIndex.BST_keySorted hbst
  have hdw : (TableIndex.inoAll (TableIndex.tree t)).dropWhile
      (fun p => decide (p.1 < a)) =
      (TableIndex.inoAll (TableIndex.tree t)).filter fun p => decide (a ≤ p.1) :=
    TableIndex.keySorted_dropWhile_filter _ hks
  have hks2 : TableIndex.KeySorted ((TableIndex.inoAll (TableIndex.tree t)).filter
      fun p => decide (a ≤ p.1)) := TableIndex.keySorted_filter _ hks
  have htw : ((TableIndex.inoAll (TableIndex.tree t)).filter
      (fun p => decide (a ≤ p.1))).takeWhile (fun p => decide (p.1 < b)) =
      ((TableIndex.inoAll (TableIndex.tree t)).filter
        (fun p => decide (a ≤ p.1))).filter fun p => decide (p.1 < b) :=
    TableIndex.keySorted_takeWhile_filter _ hks2
  rw [hspec, hdw, htw]
  congr 1
  show TableIndex.yields _ = _
  unfold TableIndex.yields TableIndex.inoLive
  rw [List.filter_filter, List.filter_filter, List.filter_filter]
  rw [List.filter_congr (fun p _ => ?_), List.map_inj_left.mpr (fun p _ => rfl)]
  show (TableIndex.liveP p && decide (p.1 < b) && decide (a ≤ p.1)) =
    (decide (a ≤ p.1) && decide (p.1 < b) && decide (0 < p.2))
  unfold TableIndex.liveP
  cases decide (a ≤ p.1) <;> cases decide (p.1 < b) <;> cases decide (0 < p.2) <;> rfl

theorem C5_witness :
    TableIndex.iter exampleIndex =
      some ((TableIndex.inoLive (TableIndex.tree exampleIndex)).map Prod.snd) ∧
    TableIndex.iter_between exampleIndex 5 11 =
      some (((TableIndex.inoLive (TableIndex.tree exampleIndex)).filter
        fun p => decide ((5 : Nat) ≤ p.1) && decide (p.1 < 11)).map Prod.snd) :=
  C5_iterate_between_filter exampleIndex exampleIndex_builtA (by intro h; cases h) 5 11

/-- C8: on every index table built by add calls interleaved with successful
exclude calls, the decoded tree satisfies the order invariant (left strictly
below, right at least the node's value), it reaches every stored record
exactly once, and — when the table is non-empty — its root is the node with
identity 1. -/
theorem C8_root_and_shape {T : Type} [LinearOrder T] (t : TableIndex.ITable T)
    (hb : TableIndex.Built t) :
    TableIndex.BST (TableIndex.tree t) ∧
    (TableIndex.idsT (TableIndex.tree t)).Perm (List.range' 1 t.length) ∧
    (t ≠ [] → ∃ l v ti r, TableIndex.tree t = TableIndex.Tr.node l 1 v ti r) := by
  obtain ⟨hw, hbst, hperm⟩ := TableIndex.Built_inv hb
  refine ⟨hbst, hperm, fun hne => ?_⟩
  have hlen : 0 < t.length := List.length_pos.mpr hne
  obtain ⟨r0, hget, hsl⟩ := @TableIndex.getU_lt T _ t 1 (by omega) (by omega)
  exact ⟨_, _, _, _, TableIndex.sub_node hw (by omega) hsl⟩

theorem C8_witness :
    TableIndex.BST (TableIndex.tree exampleIndex) ∧
    (TableIndex.idsT (TableIndex.tree exampleIndex)).Perm
      (List.range' 1 exampleIndex.length) ∧
    (exampleIndex ≠ [] → ∃ l v ti r,
      TableIndex.tree exampleIndex = TableIndex.Tr.node l 1 v ti r) :=
  C8_root_and_shape exampleIndex exampleIndex_builtA.toBuilt

/-- C9: on an index table whose stored identities agree with slot positions
(the data model of spec §3), a successful `exclude(value, target_id)`
rewrites exactly one slot: the matched node keeps its identity, value and
children and only its `target_id` becomes 0; every other slot and the
record count are unchanged. -/
theorem C9_exclude_frame {T : Type} [LinearOrder T] {t t' : TableIndex.ITable T}
    {v : T} {ti : Nat} (hids : TableIndex.IdOk t)
    (h : TableIndex.exclude t v ti = some (.ok t')) :
    ∃ i rec, t[i]? = some rec ∧ rec.payload.value = v ∧ rec.payload.table_id = ti ∧
      t' = t.set i { rec with payload := { rec.payload with table_id := 0 } } ∧
      t'.length = t.length ∧ (∀ j, j ≠ i → t'[j]? = t[j]?) ∧
      t'[i]? = some { rec with payload := { rec.payload with table_id := 0 } } := by
  obtain ⟨p, rec, hp0, hple, hsl, hrid, hval, hti, ht'⟩ := TableIndex.exclude_ok hids h
  refine ⟨p - 1, rec, hsl, hval, hti, ht', by rw [ht', List.length_set], ?_, ?_⟩
  · intro j hj
    rw [ht', List.getElem?_set_ne (fun hc => hj hc.symm)]
  · rw [ht']
    exact List.getElem?_set_eq_of_lt _ (by omega)

theorem C9_witness :
    ∃ i rec, ([(⟨1, ⟨5, 200, 0, 0⟩⟩ : Rec (TableIndex.Node Nat))])[i]? = some rec ∧
      rec.payload.value = 5 ∧ rec.payload.table_id = 200 ∧
      ([(⟨1, ⟨5, 0, 0, 0⟩⟩ : Rec (TableIndex.Node Nat))] : TableIndex.ITable Nat) =
        ([⟨1, ⟨5, 200, 0, 0⟩⟩] : TableIndex.ITable Nat).set i
          { rec with payload := { rec.payload with table_id := 0 } } ∧
      ([(⟨1, ⟨5, 0, 0, 0⟩⟩ : Rec (TableIndex.Node Nat))] : TableIndex.ITable Nat).length =
        ([⟨1, ⟨5, 200, 0, 0⟩⟩] : TableIndex.ITable Nat).length ∧
      (∀ j, j ≠ i →
        ([(⟨1, ⟨5, 0, 0, 0⟩⟩ : Rec (TableIndex.Node Nat))] : TableIndex.ITable Nat)[j]? =
        ([(⟨1, ⟨5, 200, 0, 0⟩⟩ : Rec (TableIndex.Node Nat))] : TableIndex.ITable Nat)[j]?) ∧
      ([(⟨1, ⟨5, 0, 0, 0⟩⟩ : Rec (TableIndex.Node Nat))] : TableIndex.ITable Nat)[i]? =
        some { rec with payload := { rec.payload with table_id := 0 } } :=
  C9_exclude_frame
    (by
      intro i r hr
      cases i with
      | zero =>
        rw [show ([(⟨1, ⟨5, 200, 0, 0⟩⟩ : Rec (TableIndex.Node Nat))])[0]? =
          some ⟨1, ⟨5, 200, 0, 0⟩⟩ from rfl] at hr
        cases hr
        rfl
      | succ n =>
        rw [show ([(⟨1, ⟨5, 200, 0, 0⟩⟩ : Rec (TableIndex.Node Nat))])[n + 1]? =
          none from rfl] at hr
        exact Option.noConfusion hr)
    (show TableIndex.exclude [⟨1, ⟨5, 200, 0, 0⟩⟩] 5 200 =
      some (.ok [⟨1, ⟨5, 0, 0, 0⟩⟩]) from rfl)

/-- C3 counterexample: build an index by add calls only — add (5,200)
twice — then exclude (5,200) once.  `search_many 5` still yields 200, so
after `exclude(v, t)` the claim that neither search "yields t again" fails
whenever the same pair was added more than once (exclude only tombstones
the first match on the descent path). -/
theorem C3_counterexample :
    TableIndex.add ([] : TableIndex.ITable Nat) 5 200 =
      some (.ok [⟨1, ⟨5, 200, 0, 0⟩⟩]) ∧
    TableIndex.add ([(⟨1, ⟨5, 200, 0, 0⟩⟩ : Rec (TableIndex.Node Nat))]) 5 200 =
      some (.ok [⟨1, ⟨5, 200, 0, 2⟩⟩, ⟨2, ⟨5, 200, 0, 0⟩⟩]) ∧
    TableIndex.exclude
      ([(⟨1, ⟨5, 200, 0, 2⟩⟩ : Rec (TableIndex.Node Nat)), ⟨2, ⟨5, 200, 0, 0⟩⟩]) 5 200 =
      some (.ok [⟨1, ⟨5, 0, 0, 2⟩⟩, ⟨2, ⟨5, 200, 0, 0⟩⟩]) ∧
    TableIndex.search_many
      ([(⟨1, ⟨5, 0, 0, 2⟩⟩ : Rec (TableIndex.Node Nat)), ⟨2, ⟨5, 200, 0, 0⟩⟩]) 5 =
      some [200] :=
  ⟨rfl, rfl, rfl, rfl⟩

namespace TableIndex

variable {T : Type} [LinearOrder T]

/-- C3 amended: from a table built by add calls, adding a pair `(v, ti)`
with a nonzero target that is not already stored makes `search_one v`
succeed and `search_many v` yield `ti`; a subsequent `exclude v ti`
succeeds, after which neither search yields `ti` again, and for every value
the search results are exactly what they were before the add (an empty
table searches to the empty result). -/
theorem C3_amended_add_exclude (t0 : ITable T) (hb : BuiltA t0) (v : T) (ti : Nat)
    (hti : 0 < ti) (hfresh : ∀ q ∈ inoAll (tree t0), ¬(q.1 = v ∧ q.2 = ti)) :
    ∃ t1 t2,
      add t0 v ti = some (.ok t1) ∧
      (∃ l1, search_many t1 v = some l1 ∧ ti ∈ l1) ∧
      (∃ x, search_one t1 v = some (.ok x)) ∧
      exclude t1 v ti = some (.ok t2) ∧
      (∃ l2, search_many t2 v = some l2 ∧ ti ∉ l2) ∧
      (∀ r, search_one t2 v = some r → r ≠ .ok ti) ∧
      (∀ v', search_many t2 v' =
        some (((pathRecsT v' (tree t0)).filter fun q => decide (0 < q.2)).map Prod.snd)) ∧
      (t0 ≠ [] → ∀ v', search_many t2 v' = search_many t0 v') := by
  obtain ⟨hw0, hbst0, hperm0⟩ := Built_inv hb.toBuilt
  obtain ⟨t1, hadd, hlen1, htree1, hwf1, hbst1, hperm1⟩ := add_ok hw0 hbst0 hperm0 v ti
  set rid : Nat := t0.length + 1 with hrid
  have hne1 : t1 ≠ [] := by
    intro hc
    rw [hc] at hlen1
    simp only [List.length_nil] at hlen1
    omega
  have hpath1 : ∀ v', pathRecsT v' (tree t1) =
      pathRecsT v' (tree t0) ++ (if v' = v then [(rid, ti)] else []) := by
    intro v'
    rw [htree1]
    exact pathRecsT_insertT v v' ti rid (tree t0)
  have hno : ∀ q ∈ pathRecsT v (tree t0), (fun q : Nat × Nat => decide (q.2 = ti)) q = false := by
    intro q hq
    simp only [decide_eq_false_iff_not]
    intro hq2
    have hmem : q.2 ∈ (pathRecsT v (tree t0)).map Prod.snd :=
      List.mem_map_of_mem Prod.snd hq
    rw [pathRecsT_snd_eq_filter v (tree t0) hbst0] at hmem
    obtain ⟨p', hp'f, hp'snd⟩ := List.mem_map.mp hmem
    obtain ⟨hp'mem, hp'v⟩ := List.mem_filter.mp hp'f
    exact hfresh p' hp'mem ⟨of_decide_eq_true hp'v, by rw [hp'snd, hq2]⟩
  have hfind : (pathRecsT v (tree t1)).find? (fun q => decide (q.2 = ti)) =
      some (rid, ti) := by
    rw [hpath1 v, if_pos rfl, find?_append_of_none _ _ _ hno,
      List.find?_cons_of_pos _ (by simp)]
  obtain ⟨rec, hsl, hrecid, hrecval, hrecti, -, hexc⟩ :=
    exclude_found_spec hwf1 hne1 hfind
  set t2 : ITable T := t1.set ((rid, ti).1 - 1)
    { rec with payload := { rec.payload with table_id := 0 } } with ht2
  have hp0 : 0 < rid := by omega
  have hsl1 : t1[rid - 1]? = some rec := hsl
  have htree2 : tree t2 = clearTid rid (tree t1) := by
    rw [ht2]
    show toTree (t1.set (rid - 1) { rec with payload := { rec.payload with table_id := 0 } })
      1 ((t1.set (rid - 1)
        { rec with payload := { rec.payload with table_id := 0 } }).length + 1) = _
    rw [List.length_set]
    exact @toTree_set_clear T _ t1 hwf1 rid rec
      { rec with payload := { rec.payload with table_id := 0 } }
      hp0 hsl1 rfl rfl rfl rfl rfl _ 1
  obtain ⟨hwf2, hbst2, hperm2, hlen2, -⟩ := exclude_inv hwf1 hbst1 hperm1 hexc
  have hne2 : t2 ≠ [] := by
    intro hc
    rw [hc] at hlen2
    rw [hlen1] at hlen2
    simp only [List.length_nil] at hlen2
    omega
  have hmapzero : ∀ v', (pathRecsT v' (tree t0)).map
      (fun q : Nat × Nat => if q.1 = rid then (q.1, 0) else q) = pathRecsT v' (tree t0) := by
    intro v'
    conv_rhs => rw [← List.map_id (pathRecsT v' (tree t0))]
    refine List.map_congr_left ?_
    intro q hq
    have hqfst : q.1 ∈ (pathRecsT v' (tree t0)).map Prod.fst :=
      List.mem_map_of_mem Prod.fst hq
    have hsubl := pathRecsT_fst_sublist v' (tree t0)
    have hqids : q.1 ∈ idsT (tree t0) := hsubl.mem hqfst
    have hbounds := mem_idsT_sub_bounds hw0 hqids
    rw [if_neg (by omega)]
    rfl
  have hpath2 : ∀ v', pathRecsT v' (tree t2) =
      pathRecsT v' (tree t0) ++ (if v' = v then [(rid, 0)] else []) := by
    intro v'
    rw [htree2, pathRecsT_clearTid, hpath1 v', List.map_append, hmapzero v']
    congr 1
    by_cases hv' : v' = v
    · rw [if_pos hv', if_pos hv']
      simp
    · rw [if_neg hv', if_neg hv']
      rfl
  have hsm2 : ∀ v', search_many t2 v' =
      some (((pathRecsT v' (tree t0)).filter fun q => decide (0 < q.2)).map Prod.snd) := by
    intro v'
    rw [search_many_spec hwf2 hne2 v', hpath2 v']
    congr 2
    rw [List.filter_append]
    by_cases hv' : v' = v
    · rw [if_pos hv']
      rw [show List.filter (fun q : Nat × Nat => decide (0 < q.2)) [(rid, 0)] = [] from rfl]
      rw [List.append_nil]
    · rw [if_neg hv']
      rw [show List.filter (fun q : Nat × Nat => decide (0 < q.2)) [] = [] from rfl]
      rw [List.append_nil]
  have hsm1 : search_many t1 v =
      some ((((pathRecsT v (tree t0)) ++ [(rid, ti)]).filter
        fun q => decide (0 < q.2)).map Prod.snd) := by
    rw [search_many_spec hwf1 hne1 v, hpath1 v, if_pos rfl]
  have hti_mem : ti ∈ ((((pathRecsT v (tree t0)) ++ [(rid, ti)]).filter
      fun q => decide (0 < q.2)).map Prod.snd) := by
    have h1 : (rid, ti) ∈ ((pathRecsT v (tree t0)) ++ [(rid, ti)]).filter
        fun q => decide (0 < q.2) := by
      rw [List.mem_filter]
      exact ⟨List.mem_append_right _ (List.mem_singleton.mpr rfl), by simpa using hti⟩
    exact List.mem_map_of_mem Prod.snd h1
  have hti_not : ti ∉ (((pathRecsT v (tree t0)).filter
      fun q => decide (0 < q.2)).map Prod.snd) := by
    intro hmem
    obtain ⟨q, hqf, hqsnd⟩ := List.mem_map.mp hmem
    obtain ⟨hqmem, -⟩ := List.mem_filter.mp hqf
    have hfq := hno q hqmem
    simp only [decide_eq_false_iff_not] at hfq
    exact hfq hqsnd
  refine ⟨t1, t2, hadd, ⟨_, hsm1, hti_mem⟩, ?_, hexc, ⟨_, hsm2 v, hti_not⟩, ?_, hsm2, ?_⟩
  · -- search_one on t1 succeeds
    unfold search_one
    rw [hsm1]
    cases hl : ((((pathRecsT v (tree t0)) ++ [(rid, ti)]).filter
        fun q => decide (0 < q.2)).map Prod.snd) with
    | nil => rw [hl] at hti_mem; cases hti_mem
    | cons x xs => exact ⟨x, rfl⟩
  · -- search_one never returns ti
    intro r hr hc
    subst hc
    unfold search_one at hr
    rw [hsm2 v] at hr
    cases hl : (((pathRecsT v (tree t0)).filter
        fun q => decide (0 < q.2)).map Prod.snd) with
    | nil =>
      rw [hl] at hr
      have hr' : some (Except.error Err.notFound) = some (Except.ok ti) := hr
      exact Except.noConfusion (Option.some.inj hr')
    | cons x xs =>
      rw [hl] at hr
      have hr' : some (Except.ok x) = some (Except.ok ti) := hr
      have hx : x = ti := Except.ok.inj (Option.some.inj hr')
      refine hti_not ?_
      rw [hl, ← hx]
      exact List.mem_cons_self x xs
  · -- other searches are untouched
    intro hne0 v'
    rw [hsm2 v', search_many_spec hw0 hne0 v']

end TableIndex

/-- Witness for C3: the amended add/exclude round trip, applied to the
empty index table with value 5 and target 200. -/
theorem C3_witness :
    (0 : Nat) < 200 ∧
    (∀ q ∈ TableIndex.inoAll (TableIndex.tree ([] : TableIndex.ITable Nat)),
      ¬(q.1 = 5 ∧ q.2 = 200)) ∧
    (∃ t1 t2,
      TableIndex.add ([] : TableIndex.ITable Nat) 5 200 = some (.ok t1) ∧
      (∃ l1, TableIndex.search_many t1 5 = some l1 ∧ 200 ∈ l1) ∧
      (∃ x, TableIndex.search_one t1 5 = some (.ok x)) ∧
      TableIndex.exclude t1 5 200 = some (.ok t2) ∧
      (∃ l2, TableIndex.search_many t2 5 = some l2 ∧ 200 ∉ l2) ∧
      (∀ r, TableIndex.search_one t2 5 = some r → r ≠ .ok 200) ∧
      (∀ v', TableIndex.search_many t2 v' =
        some (((TableIndex.pathRecsT v'
          (TableIndex.tree ([] : TableIndex.ITable Nat))).filter
            fun q => decide (0 < q.2)).map Prod.snd)) ∧
      (([] : TableIndex.ITable Nat) ≠ [] →
        ∀ v', TableIndex.search_many t2 v' =
          TableIndex.search_many ([] : TableIndex.ITable Nat) v')) :=
  ⟨by decide, fun q hq => absurd hq (List.not_mem_nil q),
    TableIndex.C3_amended_add_exclude [] TableIndex.BuiltA.nil 5 200 (by decide)
      (fun q hq => absurd hq (List.not_mem_nil q))⟩
